import Mathlib

/-!
The i18n key scanner and the default-value injector of `ducconit/tools`.

A shallow embedding of `cmd/vue/i18n-scan.go` and
`cmd/vue/update_i18n_default_value.go`.

* A Go `string` is an arbitrary sequence of bytes.  `regexp` and
  `encoding/json` read it with `utf8.DecodeRuneInString`, one step at a time:
  a step yields a code point together with its encoding, or rejects one byte,
  which is then read as U+FFFD.  `Str` is the sequence of these steps (`Sym`):
  a code point, or a rejected byte.  A text is valid UTF-8 when no byte of it
  is rejected (`validUTF8`).  A list of steps stands for the string with its
  bytes (`goBytes`) when it is the decoding of these bytes; the theorems hold
  for every list.  Where Go compares strings it compares their bytes, so the
  order used below is the lexicographic order of the bytes.
* A Go `map[string]string` is an association list without repeated keys
  (`GoMap`, `WF`); the order of the list stands for the order in which a
  `range` loop happens to visit the map, and the theorems hold for every order.
* `regexp` is modelled by a backtracking matcher that lists the possible
  threads in priority order; the first one is the match Go reports
  (leftmost-first semantics).
* The file tree is the list of the contents of the files that the walk reads.
* A JSON file is the list of the members of its object, in the order they
  stand in the file.  `json.MarshalIndent` writes the entries of a map sorted
  by key and writes U+FFFD for every byte of a string that is not part of a
  valid encoding (`jsonString`); `json.Unmarshal` assigns the members to a map
  one after the other, a later member with the same key replacing the value.
* The loops of `regexp` over the successive matches run on a fuel, one more
  than the length of the text; any larger fuel gives the same result
  (`findAllLoop_fuel`, `replaceAllLoop_fuel`).  Each match of the patterns of the
  program consumes at least five characters (`patterns_consume`).
-/

namespace I18n

/-! ## Strings -/

/-- One step of `utf8.DecodeRuneInString` over a Go string: a code point, which
stands for the bytes of its encoding, or a byte `0x80 + i` that the decoder
rejects (every byte below `0x80` is a code point of its own). -/
inductive Sym where
  | rune (c : Char)
  | bad (i : Fin 128)
deriving DecidableEq

instance : Coe Char Sym := ⟨Sym.rune⟩

/-- A Go string, as the sequence of its decoding steps. -/
abbrev Str := List Sym

/-- A string literal of the program or of an example. -/
def str (s : String) : Str := s.toList.map Sym.rune

/-- UTF-8 encoding of one code point, as byte values. -/
def utf8 (c : Char) : List Nat :=
  let n := c.toNat
  if n < 0x80 then [n]
  else if n < 0x800 then [0xC0 + n / 64, 0x80 + n % 64]
  else if n < 0x10000 then [0xE0 + n / 4096, 0x80 + n / 64 % 64, 0x80 + n % 64]
  else [0xF0 + n / 262144, 0x80 + n / 4096 % 64, 0x80 + n / 64 % 64, 0x80 + n % 64]

/-- The bytes of one decoding step. -/
def Sym.bytes : Sym → List Nat
  | .rune c => utf8 c
  | .bad i => [0x80 + i.val]

/-- The bytes of a Go string. -/
def goBytes (s : Str) : List Nat := s.flatMap Sym.bytes

/-- `utf8.ValidString`: no byte of the string is rejected by the decoder. -/
def validUTF8 (s : Str) : Bool :=
  s.all fun x =>
    match x with
    | .rune _ => true
    | .bad _ => false

/-- A string as `encoding/json` writes it (`appendString`) and reads it
(`unquote`): every byte that is not part of a valid encoding becomes U+FFFD. -/
def jsonString (s : Str) : Str :=
  s.map fun x =>
    match x with
    | .rune c => .rune c
    | .bad _ => .rune (Char.ofNat 0xFFFD)

/-- Go's `a <= b` on strings: lexicographic comparison of the bytes. -/
def strLE (a b : Str) : Prop := goBytes a ≤ goBytes b

instance : DecidableRel strLE := fun a b => inferInstanceAs (Decidable (goBytes a ≤ goBytes b))

instance : IsTotal Str strLE := ⟨fun a b => le_total (goBytes a) (goBytes b)⟩

instance : IsTrans Str strLE := ⟨fun _ _ _ h h' => le_trans h h'⟩

instance : IsTotal (Str × Str) (fun a b => strLE a.1 b.1) :=
  ⟨fun a b => le_total (goBytes a.1) (goBytes b.1)⟩

instance : IsTrans (Str × Str) (fun a b => strLE a.1 b.1) :=
  ⟨fun _ _ _ h h' => le_trans (α := List Nat) h h'⟩

instance : IsAntisymm Str (fun a b => goBytes a < goBytes b) :=
  ⟨fun _ _ h h' => absurd h (lt_asymm h')⟩

/-- `sort.Strings`. -/
def sortStrings (l : List Str) : List Str := l.insertionSort strLE

/-- `strings.ReplaceAll(s, old, new)` for a one-character `old`. -/
def stringsReplaceAll (s : Str) (old : Sym) (new : Str) : Str :=
  s.flatMap fun c => if c = old then new else [c]

/-- `strings.Contains(s, sub)` for a one-character `sub`. -/
def stringsContains (s : Str) (sub : Sym) : Bool := s.contains sub

/-- `strings.HasPrefix(s, prefix)` for a one-character prefix. -/
def stringsHasPrefix (s : Str) (p : Sym) : Bool := s.head? == some p

/-! ## Maps -/

/-- A Go `map[string]string`, listed in the order a `range` loop visits it. -/
abbrev GoMap := List (Str × Str)

/-- No key is listed twice. -/
def WF (m : GoMap) : Prop := (m.map Prod.fst).Nodup

instance : DecidablePred WF := fun m => inferInstanceAs (Decidable (m.map Prod.fst).Nodup)

/-- The comma-ok index expression `v, ok := m[k]`. -/
def mapGet : GoMap → Str → Option Str
  | [], _ => none
  | (k', v) :: m, k => if k' = k then some v else mapGet m k

/-- The index expression `m[k]`, the empty string when the key is absent. -/
def mapIndex (m : GoMap) (k : Str) : Str := (mapGet m k).getD []

/-- The assignment `m[k] = v`. -/
def mapSet : GoMap → Str → Str → GoMap
  | [], k, v => [(k, v)]
  | (k', v') :: m, k, v => if k' = k then (k', v) :: m else (k', v') :: mapSet m k v

/-- The keys of a map. -/
def mapKeys (m : GoMap) : List Str := m.map Prod.fst

/-! ## Regular expressions -/

/-- The syntax of the patterns used by the program.  Repetition is only ever
applied to a single character class.  A class is a predicate on decoding steps:
a rejected byte is read as U+FFFD, which no class and no literal of the
patterns names, so that it lies in the negated classes and in `.` only. -/
inductive Regex where
  | char (p : Sym → Bool)
  | wordBoundary
  | seq (a b : Regex)
  | alt (a b : Regex)
  | quest (a : Regex)
  | star (p : Sym → Bool)
  | lazyStar (p : Sym → Bool)
  | capture (n : Nat) (a : Regex)

/-- A thread of the matcher: the character before the cursor, the text consumed
since the match or the innermost group around the cursor began, the unread
text, and the groups captured so far (latest first). -/
structure Thread where
  prev : Option Sym
  seen : Str
  rest : Str
  caps : List (Nat × Str)

/-- The class `\w`. -/
def isWordChar : Sym → Bool
  | .rune c => ('0' ≤ c && c ≤ '9') || ('A' ≤ c && c ≤ 'Z') || ('a' ≤ c && c ≤ 'z') || c == '_'
  | .bad _ => false

/-- Is there a word character on this side of the cursor? -/
def isWordAt : Option Sym → Bool
  | none => false
  | some c => isWordChar c

/-- The class `\s`. -/
def isSpace (c : Sym) : Bool :=
  c == '\t' || c == '\n' || c == '\x0c' || c == '\r' || c == ' '

/-- The class `['"]`. -/
def isQuote (c : Sym) : Bool := c == '\'' || c == '"'

/-- The class `[^'"]`. -/
def notQuote (c : Sym) : Bool := !isQuote c

/-- The class `[^)]`. -/
def notClose (c : Sym) : Bool := !(c == ')')

/-- The class `.` (no `s` flag): any character but a newline. -/
def anyChar (c : Sym) : Bool := !(c == '\n')

/-- A literal character. -/
def Regex.lit (a : Sym) : Regex := .char fun c => c == a

/-- The step is the letter `a` in either letter case. -/
def Sym.foldEq : Sym → Char → Bool
  | .rune c, a => c.toLower == a.toLower
  | .bad _, _ => false

/-- A literal character under `(?i)`: both letter cases of an ASCII letter.  (No
letter of the patterns below is `k` or `s`, which have further case variants;
a character that is not a letter matches itself and is written with `lit`.) -/
def Regex.litFold (a : Char) : Regex := .char fun c => c.foldEq a

/-- Concatenation of a non-empty list of patterns. -/
def Regex.cat : Regex → List Regex → Regex
  | r, [] => r
  | r, r' :: rs => .seq r (Regex.cat r' rs)

/-- A literal string of at least one character. -/
def Regex.str (a : Sym) (s : Str) : Regex := Regex.cat (.lit a) (s.map Regex.lit)

/-- A literal string under `(?i)`. -/
def Regex.strFold (a : Char) (s : List Char) : Regex := Regex.cat (.litFold a) (s.map Regex.litFold)

/-- The pattern `p+` (greedy). -/
def Regex.plus (p : Sym → Bool) : Regex := .seq (.char p) (.star p)

/-- Greedy `p*`: the longest run first. -/
def starRun (p : Sym → Bool) (caps : List (Nat × Str)) : Option Sym → Str → Str → List Thread
  | prev, seen, [] => [⟨prev, seen, [], caps⟩]
  | prev, seen, c :: cs =>
    (if p c then starRun p caps (some c) (seen ++ [c]) cs else []) ++ [⟨prev, seen, c :: cs, caps⟩]

/-- Lazy `p*?`: the shortest run first. -/
def lazyRun (p : Sym → Bool) (caps : List (Nat × Str)) : Option Sym → Str → Str → List Thread
  | prev, seen, [] => [⟨prev, seen, [], caps⟩]
  | prev, seen, c :: cs =>
    ⟨prev, seen, c :: cs, caps⟩ :: (if p c then lazyRun p caps (some c) (seen ++ [c]) cs else [])

/-- All the ways the pattern matches at the cursor of the thread, in the order
a backtracking search finds them.  A group is run with an empty `seen`; what it
has consumed is its text. -/
def run : Regex → Thread → List Thread
  | .char p, t =>
    match t.rest with
    | c :: cs => if p c then [⟨some c, t.seen ++ [c], cs, t.caps⟩] else []
    | [] => []
  | .wordBoundary, t => if isWordAt t.prev != isWordAt t.rest.head? then [t] else []
  | .seq a b, t => (run a t).flatMap fun t' => run b t'
  | .alt a b, t => run a t ++ run b t
  | .quest a, t => run a t ++ [t]
  | .star p, t => starRun p t.caps t.prev t.seen t.rest
  | .lazyStar p, t => lazyRun p t.caps t.prev t.seen t.rest
  | .capture n a, t =>
    (run a { t with seen := [] }).map fun t' =>
      { t' with seen := t.seen ++ t'.seen, caps := (n, t'.seen) :: t'.caps }

/-- One match: the text skipped before it, the matched text, and the thread at
its end (captured groups, unread text). -/
structure Match where
  before : Str
  text : Str
  thread : Thread

/-- Submatch `i` of a match: the whole match for `0`, else the text of group
`i`, empty when the group took no part. -/
def Match.sub (m : Match) (i : Nat) : Str :=
  if i = 0 then m.text else (m.thread.caps.lookup i).getD []

/-- The match that starts at the cursor, if there is one: the first thread. -/
def matchHere (re : Regex) (prev : Option Sym) (rest : Str) : Option Match :=
  (run re ⟨prev, [], rest, []⟩).head?.map fun t => ⟨[], t.seen, t⟩

/-- The leftmost match at or after the cursor. -/
def find (re : Regex) : Option Sym → Str → Option Match
  | prev, [] => matchHere re prev []
  | prev, c :: cs =>
    match matchHere re prev (c :: cs) with
    | some m => some m
    | none => (find re (some c) cs).map fun m => { m with before := c :: m.before }

/-- `(*Regexp).FindStringSubmatch`: `none` is Go's `nil` result. -/
def FindStringSubmatch (re : Regex) (s : Str) : Option Match := find re none s

/-- The loop of `(*Regexp).FindAllStringSubmatch(s, -1)`: successive matches,
each search starting where the previous match ended.  After an empty match the
search moves one character on; Go's rule that drops an empty match right after
another match is left out, no pattern of the program matching the empty string
(`patterns_consume`). -/
def findAllLoop (re : Regex) : Nat → Option Sym → Str → List Match
  | 0, _, _ => []
  | fuel + 1, prev, rest =>
    match find re prev rest with
    | none => []
    | some m =>
      if m.text.isEmpty then
        match m.thread.rest with
        | [] => [m]
        | c :: cs => m :: findAllLoop re fuel (some c) cs
      else m :: findAllLoop re fuel m.thread.prev m.thread.rest

/-- `(*Regexp).FindAllStringSubmatch(s, -1)`. -/
def FindAllStringSubmatch (re : Regex) (s : Str) : List Match :=
  findAllLoop re (s.length + 1) none s

/-- The loop of `(*Regexp).ReplaceAllStringFunc`: the text between the matches
is copied, each match is replaced by what `repl` returns for it.  `repl` may
update a state (the variables its closure captures) and may fail. -/
def replaceAllLoop {σ : Type} (re : Regex) (repl : Str → σ → Option (Str × σ)) :
    Nat → Option Sym → Str → σ → Option (Str × σ)
  | 0, _, rest, st => some (rest, st)
  | fuel + 1, prev, rest, st =>
    match find re prev rest with
    | none => some (rest, st)
    | some m =>
      match repl m.text st with
      | none => none
      | some (out, st') =>
        if m.text.isEmpty then
          match m.thread.rest with
          | [] => some (m.before ++ out, st')
          | c :: cs =>
            (replaceAllLoop re repl fuel (some c) cs st').map fun r =>
              (m.before ++ out ++ c :: r.1, r.2)
        else
          (replaceAllLoop re repl fuel m.thread.prev m.thread.rest st').map fun r =>
            (m.before ++ out ++ r.1, r.2)

/-- `(*Regexp).ReplaceAllStringFunc`. -/
def ReplaceAllStringFunc {σ : Type} (re : Regex) (src : Str)
    (repl : Str → σ → Option (Str × σ)) (st : σ) : Option (Str × σ) :=
  replaceAllLoop re repl (src.length + 1) none src st

/-! ## `i18n-scan.go` -/

/-- The pattern ``\b(\$t|t)\(\s*['"]([^'"]+)['"]``. -/
def tFuncRegexScan : Regex :=
  Regex.cat .wordBoundary
    [.capture 1 (.alt (Regex.str '$' (['t'] : Str)) (.lit 't')),
     .lit '(',
     .star isSpace,
     .char isQuote,
     .capture 2 (Regex.plus notQuote),
     .char isQuote]

/-- The body of the walk callback of `scanForI18nKeys` for one file that is
read: every match adds its key to `keys`. -/
def scanFile (existingKeys : GoMap) (keys : GoMap) (content : Str) : GoMap :=
  (FindAllStringSubmatch tFuncRegexScan content).foldl
    (fun keys m =>
      let key := m.sub 2
      match mapGet existingKeys key with
      | some val => if val = [] then mapSet keys key [] else mapSet keys key val
      | none => mapSet keys key [])
    keys

/-- `scanForI18nKeys`, over the contents of the source files that the walk
reads, in walk order. -/
def scanForI18nKeys (files : List Str) (existingKeys : GoMap) : GoMap :=
  files.foldl (scanFile existingKeys) []

/-- `saveJSONFile`: the members of the JSON object that is written, in the
order they stand in the file.  `json.MarshalIndent` sorts the entries of the
map by key, as the keys are in the map, and then writes every key and every
value as `jsonString` has it. -/
def saveJSONFile (data : GoMap) : List (Str × Str) :=
  (data.insertionSort fun a b => strLE a.1 b.1).map fun kv => (jsonString kv.1, jsonString kv.2)

/-- `updateJSONFile`: the members of the JSON object written to the file and
the returned list of deleted keys. -/
def updateJSONFile (foundKeys existingKeys : GoMap) : List (Str × Str) × List Str :=
  let updatedKeys : GoMap := foundKeys.foldl
    (fun updatedKeys kv =>
      match mapGet existingKeys kv.1 with
      | some existingValue =>
        if existingValue ≠ [] then mapSet updatedKeys kv.1 existingValue
        else mapSet updatedKeys kv.1 kv.2
      | none => mapSet updatedKeys kv.1 kv.2)
    []
  let deletedKeys : List Str := existingKeys.foldl
    (fun deletedKeys kv =>
      match mapGet foundKeys kv.1 with
      | none => deletedKeys ++ [kv.1]
      | some _ => deletedKeys)
    []
  let sortedKeys := sortStrings (mapKeys updatedKeys)
  let jsonData : GoMap := sortedKeys.foldl
    (fun jsonData key => mapSet jsonData key (mapIndex updatedKeys key)) []
  (saveJSONFile jsonData, deletedKeys)

/-- `loadJSONKeys`: `json.Unmarshal` assigns the members of the object to the
map in the order of the file, so that of two members with the same key the
later one stays. -/
def loadJSONKeys (file : List (Str × Str)) : GoMap :=
  file.foldl (fun keys kv => mapSet keys (jsonString kv.1) (jsonString kv.2)) []

/-- The `Run` function of `I18nScanCmd`: from the file contents under `dir`
and the dictionary loaded from `output` (empty when the file does not exist) to
the dictionary written and the deleted keys printed. -/
def I18nScanCmd_Run (files : List Str) (existingKeys : GoMap) : List (Str × Str) × List Str :=
  let foundKeys := scanForI18nKeys files existingKeys
  updateJSONFile foundKeys existingKeys

/-! ## `update_i18n_default_value.go` -/

/-- The pattern ``(\$t|t)\(['"]([^'"]+)['"](,\s*([^)]*))?\)``. -/
def tFuncRegex : Regex :=
  Regex.cat (.capture 1 (.alt (Regex.str '$' (['t'] : Str)) (.lit 't')))
    [.lit '(',
     .char isQuote,
     .capture 2 (Regex.plus notQuote),
     .char isQuote,
     .quest (.capture 3 (Regex.cat (.lit ',') [.star isSpace, .capture 4 (.star notClose)])),
     .lit ')']

/-- The pattern ``(?i)(v-html|:placeholder|:label)=["']([^"']*\$t\(.*?\))["']``. -/
def attrRegex : Regex :=
  Regex.cat
    (.capture 1 (.alt (.alt (Regex.strFold 'v' "-html".toList)
      (Regex.strFold ':' "placeholder".toList)) (Regex.strFold ':' "label".toList)))
    [.lit '=',
     .char isQuote,
     .capture 2 (Regex.cat (.star notQuote)
       [.lit '$', .litFold 't', .lit '(', .lazyStar anyChar, .lit ')']),
     .char isQuote]

/-- `escapeSingleQuotes`. -/
def escapeSingleQuotes (value : Str) : Str := stringsReplaceAll value '\'' (['\\', '\''] : Str)

/-- The local `formattedJsonValue` of `processFileContent`. -/
def formattedJsonValue (jsonValue : Str) : Str :=
  if stringsContains jsonValue '<' then (['`'] : Str) ++ stringsReplaceAll jsonValue '"' (['\''] : Str) ++ (['`'] : Str)
  else (['\''] : Str) ++ escapeSingleQuotes jsonValue ++ (['\''] : Str)

/-- The inner closure of `processFileContent`, called for each translation
call `match` of an attribute; `modified` is the captured variable.  Indexing
the `nil` result of a failed `FindStringSubmatch` panics: `none`. -/
def rewriteCall (jsonMap : GoMap) (call : Str) (modified : Bool) : Option (Str × Bool) :=
  match FindStringSubmatch tFuncRegex call with
  | none => none
  | some submatches =>
    let funcName := submatches.sub 1
    let key := submatches.sub 2
    let param := submatches.sub 4
    match mapGet jsonMap key with
    | some jsonValue =>
      if param = [] then
        some (funcName ++ (str "('") ++ key ++ (str "', ") ++ formattedJsonValue jsonValue
          ++ ([')'] : Str), true)
      else if !stringsHasPrefix param '"' && !stringsHasPrefix param '\'' then
        some (funcName ++ (str "('") ++ key ++ (str "', ") ++ param ++ (str ", ")
          ++ formattedJsonValue jsonValue ++ ([')'] : Str), true)
      else some (call, modified)
    | none => some (call, modified)

/-- `processFileContent`: the new content and the `modified` flag. -/
def processFileContent (content : Str) (jsonMap : GoMap) : Option (Str × Bool) :=
  ReplaceAllStringFunc attrRegex content
    (fun attrMatch modified => ReplaceAllStringFunc tFuncRegex attrMatch (rewriteCall jsonMap) modified)
    false


/-! ## Auxiliary definitions used in the proofs -/

/-- The value of a key in the reconciled dictionary, in the words of the
specification: the value of the old dictionary when the key is there with a
non-empty value, otherwise the discovered value. -/
def reconciledValue (existingKeys foundKeys : GoMap) (k : Str) : Str :=
  match mapGet existingKeys k with
  | some v => if v ≠ [] then v else mapIndex foundKeys k
  | none => mapIndex foundKeys k

/-- The value the first loop of `updateJSONFile` stores for a key. -/
def mergedValue (existingKeys : GoMap) (key value : Str) : Str :=
  if mapIndex existingKeys key ≠ [] then mapIndex existingKeys key else value

/-- The first loop of `updateJSONFile`, from any starting map. -/
def updatedFrom (existingKeys : GoMap) (acc foundKeys : GoMap) : GoMap :=
  foundKeys.foldl (fun updatedKeys kv => mapSet updatedKeys kv.1 (mergedValue existingKeys kv.1 kv.2))
    acc

/-- The second loop of `updateJSONFile`, as a filter. -/
def deletedOf (foundKeys existingKeys : GoMap) : List Str :=
  (existingKeys.filter fun kv => (mapGet foundKeys kv.1).isNone).map Prod.fst

/-- The last loop of `updateJSONFile`, from any starting map. -/
def jsonDataFrom (updatedKeys : GoMap) (acc : GoMap) (sortedKeys : List Str) : GoMap :=
  sortedKeys.foldl (fun jsonData key => mapSet jsonData key (mapIndex updatedKeys key)) acc

/-- The keys found in the files, one entry for each match, in the order in
which `scanForI18nKeys` meets them. -/
def scannedKeys (files : List Str) : List Str :=
  files.flatMap fun content => (FindAllStringSubmatch tFuncRegexScan content).map fun m => m.sub 2

/-- The least number of characters that a match of the pattern consumes. -/
def Regex.minLen : Regex → Nat
  | .char _ => 1
  | .wordBoundary => 0
  | .seq a b => a.minLen + b.minLen
  | .alt a b => min a.minLen b.minLen
  | .quest _ => 0
  | .star _ => 0
  | .lazyStar _ => 0
  | .capture _ a => a.minLen

/-- The pattern has no `\b`. -/
def Regex.noBoundary : Regex → Bool
  | .char _ => true
  | .wordBoundary => false
  | .seq a b => a.noBoundary && b.noBoundary
  | .alt a b => a.noBoundary && b.noBoundary
  | .quest a => a.noBoundary
  | .star _ => true
  | .lazyStar _ => true
  | .capture _ a => a.noBoundary

/-- The thread as it is when the text ends `r` earlier: nothing, when the
thread has read into `r`. -/
def cut (r : Str) (t : Thread) : Option Thread :=
  if r.length ≤ t.rest.length then some { t with rest := t.rest.take (t.rest.length - r.length) }
  else none

/-- The thread without the character before the cursor. -/
def erasePrev (t : Thread) : Thread := { t with prev := none }

/-- The character before the cursor once `xs` has been consumed. -/
def lastOr (prev : Option Sym) : Str → Option Sym
  | [] => prev
  | x :: xs => lastOr (some x) xs

/-- The threads of a greedy repetition that stop inside the run `xs`. -/
def starBack (p : Sym → Bool) (caps : List (Nat × Str)) :
    Option Sym → Str → Str → Str → List Thread
  | _, _, [], _ => []
  | prev, seen, x :: xs, r =>
    starBack p caps (some x) (seen ++ [x]) xs r ++ [⟨prev, seen, x :: xs ++ r, caps⟩]

/-- The translation calls inside the recognized attributes: for every match of
`attrRegex` in the content, the matches of `tFuncRegex` in it. -/
def attrCalls (content : Str) : List Match :=
  (FindAllStringSubmatch attrRegex content).flatMap fun a =>
    FindAllStringSubmatch tFuncRegex a.text

/-- The trailing parameter of the call starts with a single or a double quote. -/
def quotedParam (call : Match) : Bool :=
  stringsHasPrefix (call.sub 4) '"' || stringsHasPrefix (call.sub 4) '\''

/-- The text starts with the pattern, letter case apart. -/
def startsFold : List Char → Str → Bool
  | [], _ => true
  | _ :: _, [] => false
  | a :: as, c :: cs => c.foldEq a && startsFold as cs

/-- One of the three attribute names, followed by `=`, starts here. -/
def attrNameAt (s : Str) : Bool :=
  startsFold "v-html=".toList s || startsFold ":placeholder=".toList s
    || startsFold ":label=".toList s

/-- One of the three attributes appears in the content. -/
def hasAttr : Str → Bool
  | [] => false
  | c :: cs => attrNameAt (c :: cs) || hasAttr cs

/-- The value with every single quote replaced by a backslash followed by a
single quote, in the words of the specification. -/
def escapedQuotes : Str → Str
  | [] => []
  | c :: cs =>
    if c = Sym.rune '\'' then Sym.rune '\\' :: Sym.rune '\'' :: escapedQuotes cs
    else c :: escapedQuotes cs

/-- The text put together again from the successive matches of a loop, the text
of every match replaced by `f`: what stands before a match, then `f` of the
match, and so on, then what is left of the text. -/
def spliceMatches (f : Match → Str) : List Match → Str → Str
  | [], rest => rest
  | m :: ms, _ => m.before ++ f m ++ spliceMatches f ms m.thread.rest

/-- The content with the text of every translation call inside a recognized
attribute replaced by `f` of the call. -/
def replaceCalls (f : Match → Str) (content : Str) : Str :=
  spliceMatches
    (fun a => spliceMatches f (FindAllStringSubmatch tFuncRegex a.text) a.text)
    (FindAllStringSubmatch attrRegex content) content

/-- The text that the closure of `processFileContent` returns for a call. -/
def closureText (jsonMap : GoMap) (call : Match) : Str :=
  match rewriteCall jsonMap call.text false with
  | some r => r.1
  | none => call.text

/-- The closure of `processFileContent` sets `modified` for the call. -/
def closureChanged (jsonMap : GoMap) (call : Match) : Bool :=
  match rewriteCall jsonMap call.text false with
  | some r => r.2
  | none => false

/-- The three attribute names of `attrRegex`, as they are written in the pattern. -/
def attrNames : List Str := [(str "v-html"), (str ":placeholder"), (str ":label")]

/-! # Theorems -/

/-! ## Lemmas on maps -/

theorem mapGet_mapSet (m : GoMap) (k v k' : Str) :
    mapGet (mapSet m k v) k' = if k = k' then some v else mapGet m k' := by
  induction m with
  | nil => simp [mapSet, mapGet]
  | cons p m ih =>
    obtain ⟨a, b⟩ := p
    by_cases h : a = k
    · subst h
      by_cases h' : a = k' <;> simp [mapSet, mapGet, h']
    · by_cases h' : a = k'
      · subst h'
        simp [mapSet, mapGet, h, Ne.symm h]
      · simp [mapSet, mapGet, h, h', ih]

theorem mapKeys_mapSet (m : GoMap) (k v : Str) :
    mapKeys (mapSet m k v) = if k ∈ mapKeys m then mapKeys m else mapKeys m ++ [k] := by
  induction m with
  | nil => simp [mapSet, mapKeys]
  | cons p m ih =>
    obtain ⟨a, b⟩ := p
    by_cases h : a = k
    · subst h
      simp [mapSet, mapKeys]
    · have h' : ¬ k = a := Ne.symm h
      simp only [mapKeys] at ih
      by_cases hk : k ∈ List.map Prod.fst m
      · simp [mapSet, mapKeys, h, h', ih, hk]
      · simp [mapSet, mapKeys, h, h', ih, hk]

theorem mem_mapKeys_mapSet (m : GoMap) (k v k' : Str) :
    k' ∈ mapKeys (mapSet m k v) ↔ k' = k ∨ k' ∈ mapKeys m := by
  rw [mapKeys_mapSet]
  split_ifs with h
  · constructor
    · exact Or.inr
    · rintro (rfl | h') <;> assumption
  · simp [or_comm]

theorem WF_mapSet (m : GoMap) (k v : Str) (h : WF m) : WF (mapSet m k v) := by
  unfold WF at *
  have := mapKeys_mapSet m k v
  simp only [mapKeys] at this
  rw [this]
  split_ifs with hk
  · exact h
  · exact List.Nodup.append h (List.nodup_singleton k) (by simpa using hk)

theorem mapGet_eq_none_iff (m : GoMap) (k : Str) : mapGet m k = none ↔ k ∉ mapKeys m := by
  induction m with
  | nil => simp [mapGet, mapKeys]
  | cons p m ih =>
    obtain ⟨a, b⟩ := p
    simp only [mapKeys] at ih
    by_cases h : a = k
    · simp [mapGet, mapKeys, h]
    · simp [mapGet, mapKeys, h, ih, Ne.symm h]

theorem mapGet_isSome_iff (m : GoMap) (k : Str) : (mapGet m k).isSome ↔ k ∈ mapKeys m := by
  rw [← not_iff_not, ← mapGet_eq_none_iff]
  cases mapGet m k <;> simp

theorem mapGet_eq_some_iff (m : GoMap) (h : WF m) (k v : Str) :
    mapGet m k = some v ↔ (k, v) ∈ m := by
  induction m with
  | nil => simp [mapGet]
  | cons p m ih =>
    obtain ⟨a, b⟩ := p
    have hm : WF m := (List.nodup_cons.1 h).2
    have ha : a ∉ List.map Prod.fst m := (List.nodup_cons.1 h).1
    by_cases hk : a = k
    · subst hk
      simp only [mapGet, if_true, Option.some.injEq, List.mem_cons, Prod.mk.injEq, true_and]
      constructor
      · intro e; exact Or.inl e.symm
      · rintro (e | e)
        · exact e.symm
        · exact absurd (List.mem_map_of_mem Prod.fst e) ha
    · simp [mapGet, hk, ih hm, Ne.symm hk]

theorem mapGet_perm {m m' : GoMap} (h : WF m) (p : m.Perm m') (k : Str) :
    mapGet m k = mapGet m' k := by
  have h' : WF m' := (List.Perm.nodup_iff (p.map Prod.fst)).1 h
  cases e : mapGet m' k with
  | none =>
    rw [mapGet_eq_none_iff] at e ⊢
    intro hk; exact e ((p.map Prod.fst).mem_iff.1 hk)
  | some v =>
    rw [mapGet_eq_some_iff m' h'] at e
    rw [mapGet_eq_some_iff m h]
    exact p.mem_iff.2 e

theorem eq_map_mapIndex (m : GoMap) (h : WF m) :
    m = (mapKeys m).map fun k => (k, mapIndex m k) := by
  induction m with
  | nil => rfl
  | cons p m ih =>
    obtain ⟨a, b⟩ := p
    have hm : WF m := (List.nodup_cons.1 h).2
    have ha : a ∉ List.map Prod.fst m := (List.nodup_cons.1 h).1
    simp only [mapKeys, List.map_cons, mapIndex, mapGet, if_true, Option.getD_some, List.cons.injEq,
      true_and, List.map_map]
    conv_lhs => rw [ih hm]
    simp only [mapKeys, List.map_map]
    apply List.map_congr_left
    intro x hx
    have : a ≠ x.1 := fun e => ha (e ▸ List.mem_map_of_mem Prod.fst hx)
    simp [mapIndex, this]


/-! ## The byte order and the strings of a JSON file -/

theorem utf8_append_inj (a b : Char) (r r' : List Nat) (h : utf8 a ++ r = utf8 b ++ r') :
    a = b ∧ r = r' := by
  have key : a.toNat = b.toNat ∧ r = r' := by
    unfold utf8 at h
    simp only at h
    generalize a.toNat = n at h
    generalize b.toNat = m at h
    split_ifs at h <;>
      simp only [List.cons_append, List.nil_append, List.cons.injEq] at h <;>
      first
      | (exfalso; have h1 := h.1; omega)
      | (obtain ⟨h1, h2⟩ := h; exact ⟨by omega, h2⟩)
      | (obtain ⟨h1, h2, h3⟩ := h; exact ⟨by omega, h3⟩)
      | (obtain ⟨h1, h2, h3, h4⟩ := h; exact ⟨by omega, h4⟩)
      | (obtain ⟨h1, h2, h3, h4, h5⟩ := h; exact ⟨by omega, h5⟩)
  refine ⟨?_, key.2⟩
  rw [← Char.ofNat_toNat a, ← Char.ofNat_toNat b, key.1]

theorem utf8_ne_nil (a : Char) : utf8 a ≠ [] := by
  unfold utf8; simp only; split_ifs <;> simp

theorem validUTF8_cons (x : Sym) (s : Str) (h : validUTF8 (x :: s) = true) :
    (∃ c, x = Sym.rune c) ∧ validUTF8 s = true := by
  cases x with
  | rune c => exact ⟨⟨c, rfl⟩, by simpa [validUTF8] using h⟩
  | bad i => simp [validUTF8] at h

/-- Two texts that are valid UTF-8 and have the same bytes are the same text. -/
theorem goBytes_inj_valid (s : Str) :
    ∀ (t : Str), validUTF8 s = true → validUTF8 t = true → goBytes s = goBytes t → s = t := by
  induction s with
  | nil =>
    intro t _ ht h
    cases t with
    | nil => rfl
    | cons b t =>
      exfalso
      obtain ⟨⟨c, rfl⟩, -⟩ := validUTF8_cons b t ht
      simp [goBytes, List.flatMap_cons, Sym.bytes] at h
      exact utf8_ne_nil c h.1
  | cons a s ih =>
    intro t hs ht h
    obtain ⟨⟨c, rfl⟩, hs'⟩ := validUTF8_cons a s hs
    cases t with
    | nil =>
      exfalso
      simp [goBytes, List.flatMap_cons, Sym.bytes] at h
      exact utf8_ne_nil c h.1
    | cons b t =>
      obtain ⟨⟨c', rfl⟩, ht'⟩ := validUTF8_cons b t ht
      simp only [goBytes, List.flatMap_cons, Sym.bytes] at h
      obtain ⟨rfl, h'⟩ := utf8_append_inj c c' _ _ h
      rw [ih t hs' ht' h']

/-- A text that is valid UTF-8 is written to a JSON file as it is. -/
theorem jsonString_valid (s : Str) (h : validUTF8 s = true) : jsonString s = s := by
  induction s with
  | nil => rfl
  | cons x s ih =>
    obtain ⟨⟨c, rfl⟩, hs⟩ := validUTF8_cons x s h
    simp only [jsonString, List.map_cons, List.cons.injEq, true_and]
    exact ih hs

/-- What is written to a JSON file is valid UTF-8. -/
theorem validUTF8_jsonString (s : Str) : validUTF8 (jsonString s) = true := by
  induction s with
  | nil => rfl
  | cons x s ih =>
    cases x with
    | rune c => simpa [validUTF8, jsonString] using ih
    | bad i => simpa [validUTF8, jsonString] using ih

theorem jsonString_idem (s : Str) : jsonString (jsonString s) = jsonString s :=
  jsonString_valid _ (validUTF8_jsonString s)

/-- Valid keys sorted by `strLE` without repetition are strictly ascending. -/
theorem strict_of_sorted_nodup (l : List Str) (hv : ∀ k ∈ l, validUTF8 k = true)
    (hs : l.Sorted strLE) (hn : l.Nodup) :
    l.Pairwise fun a b => goBytes a < goBytes b := by
  induction l with
  | nil => exact List.Pairwise.nil
  | cons a l ih =>
    rw [List.Sorted, List.pairwise_cons] at hs
    rw [List.nodup_cons] at hn
    refine List.Pairwise.cons ?_
      (ih (fun k hk => hv k (List.mem_cons_of_mem _ hk)) hs.2 hn.2)
    intro b hb
    refine lt_of_le_of_ne (hs.1 b hb) ?_
    intro e
    have := goBytes_inj_valid a b (hv a (List.mem_cons_self _ _))
      (hv b (List.mem_cons_of_mem _ hb)) e
    exact hn.1 (this ▸ hb)

theorem mapGet_map_value (f : Str → Str) (m : GoMap) (k : Str) :
    mapGet (m.map fun kv => (kv.1, f kv.2)) k = (mapGet m k).map f := by
  induction m with
  | nil => rfl
  | cons p m ih =>
    obtain ⟨a, b⟩ := p
    by_cases h : a = k
    · simp [mapGet, h]
    · simp [mapGet, h, ih]

/-- A map whose keys are valid UTF-8 is written with its keys as they are, sorted. -/
theorem saveJSONFile_valid (data : GoMap) (hk : ∀ k ∈ mapKeys data, validUTF8 k = true) :
    saveJSONFile data =
      (data.insertionSort fun a b => strLE a.1 b.1).map fun kv => (kv.1, jsonString kv.2) := by
  unfold saveJSONFile
  apply List.map_congr_left
  intro kv hkv
  have : kv ∈ data := (List.perm_insertionSort _ data).mem_iff.1 hkv
  rw [jsonString_valid kv.1 (hk kv.1 (List.mem_map_of_mem Prod.fst this))]

theorem mapKeys_saveJSONFile (data : GoMap) (hk : ∀ k ∈ mapKeys data, validUTF8 k = true) :
    mapKeys (saveJSONFile data) = mapKeys (data.insertionSort fun a b => strLE a.1 b.1) := by
  rw [saveJSONFile_valid data hk]
  simp [mapKeys, List.map_map, Function.comp]

theorem saveJSONFile_sorted (data : GoMap) (hk : ∀ k ∈ mapKeys data, validUTF8 k = true) :
    (mapKeys (saveJSONFile data)).Sorted strLE := by
  rw [mapKeys_saveJSONFile data hk]
  have h := List.sorted_insertionSort (fun a b : Str × Str => strLE a.1 b.1) data
  exact List.pairwise_map.2 h

theorem saveJSONFile_WF (data : GoMap) (hk : ∀ k ∈ mapKeys data, validUTF8 k = true)
    (h : WF data) : WF (saveJSONFile data) := by
  unfold WF
  have := mapKeys_saveJSONFile data hk
  simp only [mapKeys] at this
  rw [this]
  exact (List.Perm.nodup_iff ((List.perm_insertionSort _ data).map Prod.fst)).2 h

theorem mapGet_saveJSONFile (data : GoMap) (hk : ∀ k ∈ mapKeys data, validUTF8 k = true)
    (h : WF data) (k : Str) :
    mapGet (saveJSONFile data) k = (mapGet data k).map jsonString := by
  rw [saveJSONFile_valid data hk, mapGet_map_value]
  have hp := List.perm_insertionSort (fun a b : Str × Str => strLE a.1 b.1) data
  rw [mapGet_perm h hp.symm k]

theorem mem_mapKeys_saveJSONFile (data : GoMap) (hk : ∀ k ∈ mapKeys data, validUTF8 k = true)
    (k : Str) : k ∈ mapKeys (saveJSONFile data) ↔ k ∈ mapKeys data := by
  rw [mapKeys_saveJSONFile data hk]
  exact ((List.perm_insertionSort _ data).map Prod.fst).mem_iff

theorem mapSet_fresh (m : GoMap) (k v : Str) (h : k ∉ mapKeys m) :
    mapSet m k v = m ++ [(k, v)] := by
  induction m with
  | nil => rfl
  | cons p m ih =>
    obtain ⟨a, b⟩ := p
    simp only [mapKeys, List.map_cons, List.mem_cons, not_or] at h
    have ha : ¬ a = k := fun e => h.1 e.symm
    simp only [mapSet, ha, if_false, List.cons_append, List.cons.injEq, true_and]
    exact ih h.2

/-- Reading a file whose members have distinct keys, all text being valid
UTF-8, gives the members of the file. -/
theorem loadJSONKeys_from (file : List (Str × Str)) :
    ∀ (acc : GoMap), (∀ kv ∈ file, kv.1 ∉ mapKeys acc) → WF file →
      (∀ kv ∈ file, validUTF8 kv.1 = true ∧ validUTF8 kv.2 = true) →
      file.foldl (fun keys kv => mapSet keys (jsonString kv.1) (jsonString kv.2)) acc =
        acc ++ file := by
  induction file with
  | nil => intro acc _ _ _; simp
  | cons p file ih =>
    intro acc hfresh hwf hval
    have hp := hval p (List.mem_cons_self _ _)
    have hnd := List.nodup_cons.1 hwf
    rw [List.foldl_cons, jsonString_valid _ hp.1, jsonString_valid _ hp.2,
      mapSet_fresh _ _ _ (hfresh p (List.mem_cons_self _ _))]
    rw [ih _ ?_ hnd.2 (fun kv hkv => hval kv (List.mem_cons_of_mem _ hkv))]
    · simp
    · intro kv hkv
      simp only [mapKeys, List.map_append, List.map_cons, List.map_nil, List.mem_append,
        List.mem_singleton, not_or]
      refine ⟨hfresh kv (List.mem_cons_of_mem _ hkv), ?_⟩
      intro e
      exact hnd.1 (e ▸ List.mem_map_of_mem Prod.fst hkv)

theorem loadJSONKeys_written (file : List (Str × Str)) (hwf : WF file)
    (hval : ∀ kv ∈ file, validUTF8 kv.1 = true ∧ validUTF8 kv.2 = true) :
    loadJSONKeys file = file := by
  have := loadJSONKeys_from file [] (fun kv _ => by simp [mapKeys]) hwf hval
  simpa [loadJSONKeys] using this


/-! ## `updateJSONFile` -/

theorem updateJSONFile_eq (foundKeys existingKeys : GoMap) :
    updateJSONFile foundKeys existingKeys =
      (saveJSONFile (jsonDataFrom (updatedFrom existingKeys [] foundKeys) []
          (sortStrings (mapKeys (updatedFrom existingKeys [] foundKeys)))),
        deletedOf foundKeys existingKeys) := by
  have h1 : ∀ (upd : GoMap) (kv : Str × Str),
      (match mapGet existingKeys kv.1 with
        | some existingValue =>
          if existingValue ≠ [] then mapSet upd kv.1 existingValue else mapSet upd kv.1 kv.2
        | none => mapSet upd kv.1 kv.2) = mapSet upd kv.1 (mergedValue existingKeys kv.1 kv.2) := by
    intro upd kv
    unfold mergedValue mapIndex
    cases mapGet existingKeys kv.1 with
    | none => simp
    | some v => by_cases hv : v = [] <;> simp [hv]
  have h2 : ∀ (l : GoMap) (acc : List Str),
      l.foldl (fun deletedKeys kv =>
        match mapGet foundKeys kv.1 with
        | none => deletedKeys ++ [kv.1]
        | some _ => deletedKeys) acc = acc ++ deletedOf foundKeys l := by
    intro l
    induction l with
    | nil => intro acc; simp [deletedOf]
    | cons p l ih =>
      intro acc
      rw [List.foldl_cons, ih]
      cases e : mapGet foundKeys p.1 with
      | none => simp [deletedOf, List.filter_cons, e]
      | some v => simp [deletedOf, List.filter_cons, e]
  unfold updateJSONFile
  simp only [h1, h2, List.nil_append]
  rfl

theorem mem_mapKeys_updatedFrom (e : GoMap) (f acc : GoMap) (k : Str) :
    k ∈ mapKeys (updatedFrom e acc f) ↔ k ∈ mapKeys acc ∨ k ∈ mapKeys f := by
  induction f generalizing acc with
  | nil => simp [updatedFrom, mapKeys]
  | cons p f ih =>
    have := ih (mapSet acc p.1 (mergedValue e p.1 p.2))
    simp only [updatedFrom, List.foldl_cons] at this ⊢
    rw [this, mem_mapKeys_mapSet]
    simp only [mapKeys, List.map_cons, List.mem_cons]
    tauto

theorem WF_updatedFrom (e : GoMap) (f acc : GoMap) (h : WF acc) : WF (updatedFrom e acc f) := by
  induction f generalizing acc with
  | nil => exact h
  | cons p f ih => exact ih _ (WF_mapSet _ _ _ h)

theorem mapGet_updatedFrom (e : GoMap) (f acc : GoMap) (hf : WF f) (k : Str) :
    mapGet (updatedFrom e acc f) k =
      match mapGet f k with
      | some v => some (mergedValue e k v)
      | none => mapGet acc k := by
  induction f generalizing acc with
  | nil => simp [updatedFrom, mapGet]
  | cons p f ih =>
    obtain ⟨a, b⟩ := p
    have hf' : WF f := (List.nodup_cons.1 hf).2
    have ha : a ∉ mapKeys f := (List.nodup_cons.1 hf).1
    have := ih (mapSet acc a (mergedValue e a b)) hf'
    simp only [updatedFrom, List.foldl_cons] at this ⊢
    rw [this]
    by_cases hk : a = k
    · subst hk
      rw [(mapGet_eq_none_iff f a).2 ha]
      simp [mapGet, mapGet_mapSet]
    · simp [mapGet, hk, mapGet_mapSet]

theorem mem_mapKeys_jsonDataFrom (u acc : GoMap) (ks : List Str) (k : Str) :
    k ∈ mapKeys (jsonDataFrom u acc ks) ↔ k ∈ mapKeys acc ∨ k ∈ ks := by
  induction ks generalizing acc with
  | nil => simp [jsonDataFrom]
  | cons a ks ih =>
    have := ih (mapSet acc a (mapIndex u a))
    simp only [jsonDataFrom, List.foldl_cons] at this ⊢
    rw [this, mem_mapKeys_mapSet]
    simp only [List.mem_cons]
    tauto

theorem WF_jsonDataFrom (u acc : GoMap) (ks : List Str) (h : WF acc) :
    WF (jsonDataFrom u acc ks) := by
  induction ks generalizing acc with
  | nil => exact h
  | cons a ks ih => exact ih _ (WF_mapSet _ _ _ h)

theorem mapGet_jsonDataFrom (u acc : GoMap) (ks : List Str) (k : Str) :
    mapGet (jsonDataFrom u acc ks) k = if k ∈ ks then some (mapIndex u k) else mapGet acc k := by
  induction ks generalizing acc with
  | nil => simp [jsonDataFrom]
  | cons a ks ih =>
    have := ih (mapSet acc a (mapIndex u a))
    simp only [jsonDataFrom, List.foldl_cons] at this ⊢
    rw [this, mapGet_mapSet]
    by_cases hk : k ∈ ks
    · simp [hk]
    · by_cases ha : a = k
      · subst ha; simp
      · simp [hk, ha, Ne.symm ha]

theorem mem_sortStrings (l : List Str) (k : Str) : k ∈ sortStrings l ↔ k ∈ l :=
  (List.perm_insertionSort strLE l).mem_iff

theorem jsonData_keys_valid (f e : GoMap) (hk : ∀ k ∈ mapKeys f, validUTF8 k = true) :
    ∀ k ∈ mapKeys (jsonDataFrom (updatedFrom e [] f) []
        (sortStrings (mapKeys (updatedFrom e [] f)))), validUTF8 k = true := by
  intro k hkm
  rw [mem_mapKeys_jsonDataFrom, mem_sortStrings, mem_mapKeys_updatedFrom] at hkm
  apply hk
  simpa [mapKeys] using hkm

/-- The keys of the dictionary that `updateJSONFile` writes. -/
theorem mem_mapKeys_written (f e : GoMap) (hk : ∀ k ∈ mapKeys f, validUTF8 k = true) (k : Str) :
    k ∈ mapKeys (updateJSONFile f e).1 ↔ k ∈ mapKeys f := by
  rw [updateJSONFile_eq]
  simp only
  rw [mem_mapKeys_saveJSONFile _ (jsonData_keys_valid f e hk), mem_mapKeys_jsonDataFrom,
    mem_sortStrings, mem_mapKeys_updatedFrom]
  simp [mapKeys]

theorem WF_written (f e : GoMap) (hk : ∀ k ∈ mapKeys f, validUTF8 k = true) :
    WF (updateJSONFile f e).1 := by
  rw [updateJSONFile_eq]
  have hnil : WF ([] : GoMap) := List.nodup_nil
  exact saveJSONFile_WF _ (jsonData_keys_valid f e hk) (WF_jsonDataFrom _ _ _ hnil)

/-- The values of the dictionary that `updateJSONFile` writes. -/
theorem mapGet_written (f e : GoMap) (hf : WF f) (hk : ∀ k ∈ mapKeys f, validUTF8 k = true)
    (k : Str) :
    mapGet (updateJSONFile f e).1 k =
      match mapGet f k with
      | some v => some (jsonString (mergedValue e k v))
      | none => none := by
  rw [updateJSONFile_eq]
  simp only
  have hnil : WF ([] : GoMap) := List.nodup_nil
  rw [mapGet_saveJSONFile _ (jsonData_keys_valid f e hk) (WF_jsonDataFrom _ _ _ hnil),
    mapGet_jsonDataFrom]
  have hmem : k ∈ sortStrings (mapKeys (updatedFrom e [] f)) ↔ k ∈ mapKeys f := by
    rw [mem_sortStrings, mem_mapKeys_updatedFrom]
    simp [mapKeys]
  cases e' : mapGet f k with
  | none =>
    have : k ∉ mapKeys f := (mapGet_eq_none_iff f k).1 e'
    simp [hmem, this, mapGet]
  | some v =>
    have : k ∈ mapKeys f := by
      rw [← mapGet_isSome_iff, e']; rfl
    simp [hmem, this, mapIndex, mapGet_updatedFrom e f [] hf, e']

theorem written_sorted (f e : GoMap) (hk : ∀ k ∈ mapKeys f, validUTF8 k = true) :
    (mapKeys (updateJSONFile f e).1).Pairwise fun a b => goBytes a < goBytes b := by
  apply strict_of_sorted_nodup
  · intro k hkm
    exact hk k ((mem_mapKeys_written f e hk k).1 hkm)
  · rw [updateJSONFile_eq]
    exact saveJSONFile_sorted _ (jsonData_keys_valid f e hk)
  · exact WF_written f e hk

/-! ## `scanForI18nKeys` -/

theorem scanFile_eq (e keys : GoMap) (content : Str) :
    scanFile e keys content =
      jsonDataFrom e keys ((FindAllStringSubmatch tFuncRegexScan content).map fun m => m.sub 2) := by
  have h : ∀ (keys : GoMap) (key : Str),
      (match mapGet e key with
        | some val => if val = [] then mapSet keys key [] else mapSet keys key val
        | none => mapSet keys key []) = mapSet keys key (mapIndex e key) := by
    intro keys key
    unfold mapIndex
    cases mapGet e key with
    | none => rfl
    | some v => by_cases hv : v = [] <;> simp [hv]
  unfold scanFile jsonDataFrom
  simp only [h, List.foldl_map]

theorem scanForI18nKeys_eq (files : List Str) (e : GoMap) :
    scanForI18nKeys files e = jsonDataFrom e [] (scannedKeys files) := by
  have h : ∀ (acc : GoMap), files.foldl (scanFile e) acc = jsonDataFrom e acc (scannedKeys files) := by
    induction files with
    | nil => intro acc; rfl
    | cons c files ih =>
      intro acc
      rw [List.foldl_cons, ih, scanFile_eq]
      simp only [jsonDataFrom, scannedKeys, List.flatMap_cons, List.foldl_append]
  exact h []

theorem mergedValue_mapIndex (e : GoMap) (k : Str) : mergedValue e k (mapIndex e k) = mapIndex e k := by
  unfold mergedValue; split_ifs <;> rfl

theorem mem_mapKeys_scanForI18nKeys (files : List Str) (D : GoMap) (k : Str) :
    k ∈ mapKeys (scanForI18nKeys files D) ↔ k ∈ scannedKeys files := by
  rw [scanForI18nKeys_eq, mem_mapKeys_jsonDataFrom]
  simp [mapKeys]

/-- The dictionary written by one run of the scan command. -/
theorem mapGet_run (files : List Str) (D : GoMap)
    (hk : ∀ k ∈ scannedKeys files, validUTF8 k = true) (k : Str) :
    mapGet (I18nScanCmd_Run files D).1 k =
      if k ∈ scannedKeys files then some (jsonString (mapIndex D k)) else none := by
  have hnil : WF ([] : GoMap) := List.nodup_nil
  unfold I18nScanCmd_Run
  simp only
  rw [mapGet_written _ _ (by rw [scanForI18nKeys_eq]; exact WF_jsonDataFrom _ _ _ hnil)
      (fun k hkm => hk k ((mem_mapKeys_scanForI18nKeys files D k).1 hkm)),
    scanForI18nKeys_eq, mapGet_jsonDataFrom]
  by_cases hk : k ∈ scannedKeys files
  · simp [hk, mergedValue_mapIndex]
  · simp [hk, mapGet]

/-- Two written dictionaries with the same content are the same list. -/
theorem written_ext (a b : GoMap) (ha : WF a) (hb : WF b)
    (sa : (mapKeys a).Pairwise fun x y => goBytes x < goBytes y)
    (sb : (mapKeys b).Pairwise fun x y => goBytes x < goBytes y)
    (h : ∀ k, mapGet a k = mapGet b k) : a = b := by
  have hk : mapKeys a = mapKeys b := by
    apply List.eq_of_perm_of_sorted ?_ sa sb
    apply (List.perm_ext_iff_of_nodup ha hb).2
    intro k
    show k ∈ mapKeys a ↔ k ∈ mapKeys b
    rw [← mapGet_isSome_iff, ← mapGet_isSome_iff, h k]
  rw [eq_map_mapIndex a ha, eq_map_mapIndex b hb, hk]
  apply List.map_congr_left
  intro k _
  simp [mapIndex, h k]

/-! ## The claims on the key scanner -/

/-- C1 as the code has it: when the keys of `foundKeys` and the values assigned
to them are valid UTF-8, the dictionary that `updateJSONFile` writes has exactly
the keys of `foundKeys`, each once, and a key maps to the value of `existingKeys`
when it has a non-empty one there, otherwise to the value of `foundKeys`. -/
theorem updateJSONFile_written (foundKeys existingKeys : GoMap) (hf : WF foundKeys)
    (hk : ∀ k ∈ mapKeys foundKeys, validUTF8 k = true)
    (hv : ∀ k ∈ mapKeys foundKeys, validUTF8 (reconciledValue existingKeys foundKeys k) = true) :
    (∀ k, k ∈ mapKeys (updateJSONFile foundKeys existingKeys).1 ↔ k ∈ mapKeys foundKeys) ∧
    (mapKeys (updateJSONFile foundKeys existingKeys).1).Nodup ∧
    ∀ k, k ∈ mapKeys foundKeys →
      mapGet (updateJSONFile foundKeys existingKeys).1 k =
        some (reconciledValue existingKeys foundKeys k) := by
  refine ⟨mem_mapKeys_written foundKeys existingKeys hk, WF_written foundKeys existingKeys hk, ?_⟩
  intro k hkm
  have hvk := hv k hkm
  rw [mapGet_written _ _ hf hk]
  rw [← mapGet_isSome_iff] at hkm
  cases e : mapGet foundKeys k with
  | none => rw [e] at hkm; cases hkm
  | some v =>
    have hmv : mergedValue existingKeys k v = reconciledValue existingKeys foundKeys k := by
      simp only [reconciledValue, mapIndex, mergedValue, e, Option.getD_some]
      cases mapGet existingKeys k with
      | none => simp
      | some w => simp
    simp only [hmv, jsonString_valid _ hvk]

/-- The example of C1: the old dictionary `greeting: Hello`, the keys `greeting` and `bye` found. -/
theorem updateJSONFile_written_witness :
    (updateJSONFile [(str "greeting", []), (str "bye", [])] [(str "greeting", str "Hello")]).1 =
      [(str "bye", []), (str "greeting", str "Hello")] ∧
    ((∀ k, k ∈ mapKeys (updateJSONFile [(str "greeting", []), (str "bye", [])]
        [(str "greeting", str "Hello")]).1 ↔
        k ∈ mapKeys [(str "greeting", []), (str "bye", [])]) ∧
      (mapKeys (updateJSONFile [(str "greeting", []), (str "bye", [])]
        [(str "greeting", str "Hello")]).1).Nodup ∧
      ∀ k, k ∈ mapKeys [(str "greeting", []), (str "bye", [])] →
        mapGet (updateJSONFile [(str "greeting", []), (str "bye", [])]
          [(str "greeting", str "Hello")]).1 k =
          some (reconciledValue [(str "greeting", str "Hello")]
            [(str "greeting", []), (str "bye", [])] k)) :=
  ⟨by decide,
    updateJSONFile_written [(str "greeting", []), (str "bye", [])]
      [(str "greeting", str "Hello")] (by decide) (by decide) (by decide)⟩

/-- C1 fails as stated.  The found keys `\xfe` and `\xff` are both written as
U+FFFD, so that neither is a key of the written dictionary; and the value `\xff`
that the old dictionary has for the key `a` is written as U+FFFD. -/
theorem updateJSONFile_written_counterexample :
    (goBytes [Sym.bad 126] = [0xFE] ∧ goBytes [Sym.bad 127] = [0xFF] ∧
      goBytes [Sym.rune (Char.ofNat 0xFFFD)] = [0xEF, 0xBF, 0xBD]) ∧
    (WF [([Sym.bad 126], []), ([Sym.bad 127], [])] ∧
      (updateJSONFile [([Sym.bad 126], []), ([Sym.bad 127], [])] []).1 =
        [([Sym.rune (Char.ofNat 0xFFFD)], []), ([Sym.rune (Char.ofNat 0xFFFD)], [])] ∧
      ¬ (∀ k, k ∈ mapKeys (updateJSONFile [([Sym.bad 126], []), ([Sym.bad 127], [])] []).1 ↔
        k ∈ mapKeys [([Sym.bad 126], []), ([Sym.bad 127], [])])) ∧
    (WF [(str "a", [])] ∧
      reconciledValue [(str "a", [Sym.bad 127])] [(str "a", [])] (str "a") = [Sym.bad 127] ∧
      mapGet (updateJSONFile [(str "a", [])] [(str "a", [Sym.bad 127])]).1 (str "a") =
        some [Sym.rune (Char.ofNat 0xFFFD)] ∧
      mapGet (updateJSONFile [(str "a", [])] [(str "a", [Sym.bad 127])]).1 (str "a") ≠
        some (reconciledValue [(str "a", [Sym.bad 127])] [(str "a", [])] (str "a"))) :=
  ⟨by decide,
    ⟨by decide, by decide, fun h => absurd ((h [Sym.bad 126]).2 (by decide)) (by decide)⟩,
    by decide, by decide, by decide, by decide⟩

/-- C2 as the code has it: the list returned by `updateJSONFile` holds, each
once, exactly the keys of `existingKeys` that are not keys of `foundKeys`; and
when the keys of `foundKeys` are valid UTF-8, none of them is a key of the
written dictionary. -/
theorem updateJSONFile_deleted (foundKeys existingKeys : GoMap) (he : WF existingKeys) :
    (updateJSONFile foundKeys existingKeys).2.Nodup ∧
    (∀ k, k ∈ (updateJSONFile foundKeys existingKeys).2 ↔
      k ∈ mapKeys existingKeys ∧ k ∉ mapKeys foundKeys) ∧
    ((∀ k ∈ mapKeys foundKeys, validUTF8 k = true) →
      ∀ k, k ∈ (updateJSONFile foundKeys existingKeys).2 →
        k ∉ mapKeys (updateJSONFile foundKeys existingKeys).1) := by
  have hmem : ∀ k, k ∈ (updateJSONFile foundKeys existingKeys).2 ↔
      k ∈ mapKeys existingKeys ∧ k ∉ mapKeys foundKeys := by
    intro k
    rw [updateJSONFile_eq]
    simp only [deletedOf, mapKeys, List.mem_map, List.mem_filter, Option.isNone_iff_eq_none,
      mapGet_eq_none_iff]
    constructor
    · rintro ⟨p, ⟨hp, hn⟩, rfl⟩
      exact ⟨⟨p, hp, rfl⟩, hn⟩
    · rintro ⟨⟨p, hp, rfl⟩, hn⟩
      exact ⟨p, ⟨hp, hn⟩, rfl⟩
  refine ⟨?_, hmem, ?_⟩
  · rw [updateJSONFile_eq]
    exact List.Nodup.sublist (List.Sublist.map Prod.fst (List.filter_sublist _)) he
  · intro hk k hkd
    rw [mem_mapKeys_written _ _ hk]
    exact ((hmem k).1 hkd).2

/-- The example of C2: the old dictionary has `a` and `b`, only `a` is found. -/
theorem updateJSONFile_deleted_witness :
    updateJSONFile [(str "a", str "1")] [(str "a", str "1"), (str "b", str "2")] =
      ([(str "a", str "1")], [str "b"]) ∧
    (updateJSONFile [(str "a", str "1")] [(str "a", str "1"), (str "b", str "2")]).2.Nodup ∧
    (∀ k, k ∈ (updateJSONFile [(str "a", str "1")]
        [(str "a", str "1"), (str "b", str "2")]).2 ↔
      k ∈ mapKeys [(str "a", str "1"), (str "b", str "2")] ∧ k ∉ mapKeys [(str "a", str "1")]) ∧
    ∀ k, k ∈ (updateJSONFile [(str "a", str "1")]
        [(str "a", str "1"), (str "b", str "2")]).2 →
      k ∉ mapKeys (updateJSONFile [(str "a", str "1")]
        [(str "a", str "1"), (str "b", str "2")]).1 :=
  ⟨by decide,
    (updateJSONFile_deleted [(str "a", str "1")] [(str "a", str "1"), (str "b", str "2")]
      (by decide)).1,
    (updateJSONFile_deleted [(str "a", str "1")] [(str "a", str "1"), (str "b", str "2")]
      (by decide)).2.1,
    (updateJSONFile_deleted [(str "a", str "1")] [(str "a", str "1"), (str "b", str "2")]
      (by decide)).2.2 (by decide)⟩

/-- C2 fails as stated.  The old dictionary has the key U+FFFD; the keys `\xfe`
and `\xff` are found.  The key U+FFFD is reported as deleted, and it is a key of
the written dictionary, both found keys being written as U+FFFD. -/
theorem updateJSONFile_deleted_counterexample :
    (goBytes [Sym.bad 126] = [0xFE] ∧ goBytes [Sym.bad 127] = [0xFF] ∧
      goBytes [Sym.rune (Char.ofNat 0xFFFD)] = [0xEF, 0xBF, 0xBD]) ∧
    WF [([Sym.rune (Char.ofNat 0xFFFD)], [])] ∧
    updateJSONFile [([Sym.bad 126], []), ([Sym.bad 127], [])]
        [([Sym.rune (Char.ofNat 0xFFFD)], [])] =
      ([([Sym.rune (Char.ofNat 0xFFFD)], []), ([Sym.rune (Char.ofNat 0xFFFD)], [])],
        [[Sym.rune (Char.ofNat 0xFFFD)]]) ∧
    ¬ (∀ k, k ∈ (updateJSONFile [([Sym.bad 126], []), ([Sym.bad 127], [])]
          [([Sym.rune (Char.ofNat 0xFFFD)], [])]).2 →
        k ∉ mapKeys (updateJSONFile [([Sym.bad 126], []), ([Sym.bad 127], [])]
          [([Sym.rune (Char.ofNat 0xFFFD)], [])]).1) :=
  ⟨by decide, by decide, by decide,
    fun h => h [Sym.rune (Char.ofNat 0xFFFD)] (by decide) (by decide)⟩

/-- C9 as the code has it: when the keys are valid UTF-8, the keys of the JSON
object that `updateJSONFile` writes, and of the one that `saveJSONFile` writes
for a map, stand in strictly ascending order of their bytes, and no key is
repeated. -/
theorem updateJSONFile_keys_ascending (foundKeys existingKeys data : GoMap)
    (hk : ∀ k ∈ mapKeys foundKeys, validUTF8 k = true)
    (hd : WF data) (hdk : ∀ k ∈ mapKeys data, validUTF8 k = true) :
    (((updateJSONFile foundKeys existingKeys).1.map Prod.fst).Pairwise
        (fun a b => goBytes a < goBytes b) ∧
      ((updateJSONFile foundKeys existingKeys).1.map Prod.fst).Nodup) ∧
    (((saveJSONFile data).map Prod.fst).Pairwise (fun a b => goBytes a < goBytes b) ∧
      ((saveJSONFile data).map Prod.fst).Nodup) := by
  refine ⟨⟨written_sorted foundKeys existingKeys hk, WF_written foundKeys existingKeys hk⟩,
    ?_, saveJSONFile_WF data hdk hd⟩
  apply strict_of_sorted_nodup
  · intro k hkm
    exact hdk k ((mem_mapKeys_saveJSONFile data hdk k).1 hkm)
  · exact saveJSONFile_sorted data hdk
  · exact saveJSONFile_WF data hdk hd

/-- An example of C9: the keys `greeting` and `bye` are written as `bye`, `greeting`. -/
theorem updateJSONFile_keys_ascending_witness :
    (updateJSONFile [(str "greeting", []), (str "bye", [])] []).1.map Prod.fst =
      [str "bye", str "greeting"] ∧
    (saveJSONFile [(str "b", str "2"), (str "a", str "1")]).map Prod.fst = [str "a", str "b"] ∧
    ((((updateJSONFile [(str "greeting", []), (str "bye", [])] []).1.map Prod.fst).Pairwise
        (fun a b => goBytes a < goBytes b) ∧
      ((updateJSONFile [(str "greeting", []), (str "bye", [])] []).1.map Prod.fst).Nodup) ∧
    (((saveJSONFile [(str "b", str "2"), (str "a", str "1")]).map Prod.fst).Pairwise
        (fun a b => goBytes a < goBytes b) ∧
      ((saveJSONFile [(str "b", str "2"), (str "a", str "1")]).map Prod.fst).Nodup)) :=
  ⟨by decide, by decide,
    updateJSONFile_keys_ascending [(str "greeting", []), (str "bye", [])] []
      [(str "b", str "2"), (str "a", str "1")] (by decide) (by decide) (by decide)⟩

/-- C9 fails as stated.  The keys `\xfe` and `\xff` are both written as U+FFFD:
the key is repeated, and the keys of the file are not strictly ascending. -/
theorem updateJSONFile_keys_ascending_counterexample :
    (goBytes [Sym.bad 126] = [0xFE] ∧ goBytes [Sym.bad 127] = [0xFF] ∧
      goBytes [Sym.rune (Char.ofNat 0xFFFD)] = [0xEF, 0xBF, 0xBD]) ∧
    WF [([Sym.bad 126], []), ([Sym.bad 127], [])] ∧
    (updateJSONFile [([Sym.bad 126], []), ([Sym.bad 127], [])] []).1.map Prod.fst =
      [[Sym.rune (Char.ofNat 0xFFFD)], [Sym.rune (Char.ofNat 0xFFFD)]] ∧
    ¬ ((updateJSONFile [([Sym.bad 126], []), ([Sym.bad 127], [])] []).1.map Prod.fst).Nodup ∧
    ¬ ((updateJSONFile [([Sym.bad 126], []), ([Sym.bad 127], [])] []).1.map Prod.fst).Pairwise
        (fun a b => goBytes a < goBytes b) ∧
    (saveJSONFile [([Sym.bad 126], []), ([Sym.bad 127], [])]).map Prod.fst =
      [[Sym.rune (Char.ofNat 0xFFFD)], [Sym.rune (Char.ofNat 0xFFFD)]] := by
  decide

/-- C3 as the code has it: the key scan is idempotent when the keys found in
the files are valid UTF-8.  When `D1` is the dictionary written by a first run
from `D` (read back in any order), a second run over the same files from `D1`
writes the same dictionary and reports no deleted key. -/
theorem scan_idempotent (files : List Str) (D D1 : GoMap)
    (hk : ∀ k ∈ mapKeys (scanForI18nKeys files D), validUTF8 k = true)
    (h : D1.Perm (loadJSONKeys (I18nScanCmd_Run files D).1)) :
    I18nScanCmd_Run files D1 = ((I18nScanCmd_Run files D).1, []) := by
  have hnil : WF ([] : GoMap) := List.nodup_nil
  have hks : ∀ k ∈ scannedKeys files, validUTF8 k = true := fun k hkm =>
    hk k ((mem_mapKeys_scanForI18nKeys files D k).2 hkm)
  have hkD : ∀ (E : GoMap), ∀ k ∈ mapKeys (scanForI18nKeys files E), validUTF8 k = true :=
    fun E k hkm => hks k ((mem_mapKeys_scanForI18nKeys files E k).1 hkm)
  have hw : WF (I18nScanCmd_Run files D).1 := WF_written _ _ (hkD D)
  have hval : ∀ kv ∈ (I18nScanCmd_Run files D).1, validUTF8 kv.1 = true ∧ validUTF8 kv.2 = true := by
    intro kv hkv
    have h1 : kv.1 ∈ mapKeys (I18nScanCmd_Run files D).1 := List.mem_map_of_mem Prod.fst hkv
    have h2 : mapGet (I18nScanCmd_Run files D).1 kv.1 = some kv.2 :=
      (mapGet_eq_some_iff _ hw kv.1 kv.2).2 hkv
    refine ⟨hkD D _ ((mem_mapKeys_written _ _ (hkD D) kv.1).1 h1), ?_⟩
    rw [mapGet_run files D hks] at h2
    split_ifs at h2
    simp only [Option.some.injEq] at h2
    rw [← h2]
    exact validUTF8_jsonString _
  rw [loadJSONKeys_written _ hw hval] at h
  have hD1 : WF D1 := (List.Perm.nodup_iff (h.map Prod.fst)).2 hw
  have hget : ∀ k, mapGet D1 k = mapGet (I18nScanCmd_Run files D).1 k := fun k =>
    mapGet_perm hD1 h k
  have hidx : ∀ k, k ∈ scannedKeys files → mapIndex D1 k = jsonString (mapIndex D k) := by
    intro k hk
    simp [mapIndex, hget k, mapGet_run files D hks, hk]
  apply Prod.ext
  · apply written_ext _ _ (WF_written _ _ (hkD D1)) hw (written_sorted _ _ (hkD D1))
      (written_sorted _ _ (hkD D))
    intro k
    show mapGet (I18nScanCmd_Run files D1).1 k = mapGet (I18nScanCmd_Run files D).1 k
    rw [mapGet_run files D1 hks, mapGet_run files D hks]
    by_cases hk : k ∈ scannedKeys files
    · simp [hk, hidx k hk, jsonString_idem]
    · simp [hk]
  · show (updateJSONFile (scanForI18nKeys files D1) D1).2 = []
    rw [updateJSONFile_eq]
    simp only [deletedOf, List.map_eq_nil_iff, List.filter_eq_nil_iff]
    intro p hp
    have hk : p.1 ∈ mapKeys D1 := List.mem_map_of_mem Prod.fst hp
    rw [← mapGet_isSome_iff, hget, mapGet_run files D hks] at hk
    have hk' : p.1 ∈ scannedKeys files := by
      by_contra hc
      simp [hc] at hk
    have : p.1 ∈ mapKeys (scanForI18nKeys files D1) :=
      (mem_mapKeys_scanForI18nKeys files D1 p.1).2 hk'
    rw [← mapGet_isSome_iff] at this
    cases e : mapGet (scanForI18nKeys files D1) p.1 with
    | none => rw [e] at this; cases this
    | some v => simp

/-- An example of C3: a first run that drops the key `old`, and a second run from
the dictionary it has written. -/
theorem scan_idempotent_witness :
    I18nScanCmd_Run [(str "t('greeting') $t(\"farewell\", \x7bcount: 2\x7d)")]
        [(str "greeting", str "Hello"), (str "old", str "x")] =
      ([(str "farewell", []), (str "greeting", str "Hello")], [str "old"]) ∧
    loadJSONKeys [(str "farewell", []), (str "greeting", str "Hello")] =
      [(str "farewell", []), (str "greeting", str "Hello")] ∧
    I18nScanCmd_Run [(str "t('greeting') $t(\"farewell\", \x7bcount: 2\x7d)")]
        [(str "greeting", str "Hello"), (str "farewell", [])] =
      ((I18nScanCmd_Run [(str "t('greeting') $t(\"farewell\", \x7bcount: 2\x7d)")]
        [(str "greeting", str "Hello"), (str "old", str "x")]).1, []) :=
  ⟨by decide, by decide,
    scan_idempotent [(str "t('greeting') $t(\"farewell\", \x7bcount: 2\x7d)")]
      [(str "greeting", str "Hello"), (str "old", str "x")]
      [(str "greeting", str "Hello"), (str "farewell", [])]
      (by decide)
      (by
        have e : loadJSONKeys (I18nScanCmd_Run
            [(str "t('greeting') $t(\"farewell\", \x7bcount: 2\x7d)")]
            [(str "greeting", str "Hello"), (str "old", str "x")]).1 =
            [(str "farewell", []), (str "greeting", str "Hello")] := by decide
        rw [e]
        exact List.Perm.swap _ _ _)⟩

/-- C3 fails as stated.  The file reads `t('\xff') t('\xfe')`, the dictionary is
empty.  The first run writes the key U+FFFD twice; read back, the dictionary has
the one key U+FFFD, and the second run reports this key as deleted. -/
theorem scan_idempotent_counterexample :
    (goBytes [Sym.bad 126] = [0xFE] ∧ goBytes [Sym.bad 127] = [0xFF] ∧
      goBytes [Sym.rune (Char.ofNat 0xFFFD)] = [0xEF, 0xBF, 0xBD]) ∧
    (I18nScanCmd_Run [str "t('" ++ [Sym.bad 127] ++ str "') t('" ++ [Sym.bad 126] ++ str "')"]
        []).1 =
      [([Sym.rune (Char.ofNat 0xFFFD)], []), ([Sym.rune (Char.ofNat 0xFFFD)], [])] ∧
    loadJSONKeys (I18nScanCmd_Run
        [str "t('" ++ [Sym.bad 127] ++ str "') t('" ++ [Sym.bad 126] ++ str "')"] []).1 =
      [([Sym.rune (Char.ofNat 0xFFFD)], [])] ∧
    I18nScanCmd_Run [str "t('" ++ [Sym.bad 127] ++ str "') t('" ++ [Sym.bad 126] ++ str "')"]
        [([Sym.rune (Char.ofNat 0xFFFD)], [])] =
      ([([Sym.rune (Char.ofNat 0xFFFD)], []), ([Sym.rune (Char.ofNat 0xFFFD)], [])],
        [[Sym.rune (Char.ofNat 0xFFFD)]]) ∧
    I18nScanCmd_Run [str "t('" ++ [Sym.bad 127] ++ str "') t('" ++ [Sym.bad 126] ++ str "')"]
        [([Sym.rune (Char.ofNat 0xFFFD)], [])] ≠
      ((I18nScanCmd_Run
        [str "t('" ++ [Sym.bad 127] ++ str "') t('" ++ [Sym.bad 126] ++ str "')"] []).1, []) := by
  decide

/-! ## The matcher -/

theorem starRun_sound (p : Sym → Bool) (caps : List (Nat × Str)) (rest : Str) :
    ∀ (prev : Option Sym) (seen : Str) (t : Thread), t ∈ starRun p caps prev seen rest →
      ∃ w, t.seen = seen ++ w ∧ rest = w ++ t.rest ∧ t.caps = caps := by
  induction rest with
  | nil =>
    intro prev seen t ht
    simp only [starRun, List.mem_singleton] at ht
    subst ht
    exact ⟨[], by simp⟩
  | cons c cs ih =>
    intro prev seen t ht
    simp only [starRun, List.mem_append, List.mem_singleton] at ht
    rcases ht with ht | ht
    · split_ifs at ht with hp
      · obtain ⟨w, h1, h2, h3⟩ := ih _ _ t ht
        exact ⟨c :: w, by simp [h1], by simp [h2], h3⟩
      · cases ht
    · subst ht
      exact ⟨[], by simp⟩

theorem lazyRun_sound (p : Sym → Bool) (caps : List (Nat × Str)) (rest : Str) :
    ∀ (prev : Option Sym) (seen : Str) (t : Thread), t ∈ lazyRun p caps prev seen rest →
      ∃ w, t.seen = seen ++ w ∧ rest = w ++ t.rest ∧ t.caps = caps := by
  induction rest with
  | nil =>
    intro prev seen t ht
    simp only [lazyRun, List.mem_singleton] at ht
    subst ht
    exact ⟨[], by simp⟩
  | cons c cs ih =>
    intro prev seen t ht
    simp only [lazyRun, List.mem_cons] at ht
    rcases ht with ht | ht
    · subst ht
      exact ⟨[], by simp⟩
    · split_ifs at ht with hp
      · obtain ⟨w, h1, h2, h3⟩ := ih _ _ t ht
        exact ⟨c :: w, by simp [h1], by simp [h2], h3⟩
      · cases ht

/-- Every thread that `run` returns has consumed a prefix of the unread text and
has added it to `seen`. -/
theorem run_sound (re : Regex) :
    ∀ (t t' : Thread), t' ∈ run re t → ∃ w, t'.seen = t.seen ++ w ∧ t.rest = w ++ t'.rest := by
  induction re with
  | char p =>
    intro t t' h
    simp only [run] at h
    split at h
    · rename_i c cs hr
      split_ifs at h with hp
      · simp only [List.mem_singleton] at h
        subst h
        exact ⟨[c], rfl, by simp [hr]⟩
      · cases h
    · cases h
  | wordBoundary =>
    intro t t' h
    simp only [run] at h
    split_ifs at h
    · simp only [List.mem_singleton] at h
      subst h
      exact ⟨[], by simp⟩
    · cases h
  | seq a b iha ihb =>
    intro t t' h
    simp only [run, List.mem_flatMap] at h
    obtain ⟨t1, h1, h2⟩ := h
    obtain ⟨w1, e1, e2⟩ := iha _ _ h1
    obtain ⟨w2, e3, e4⟩ := ihb _ _ h2
    exact ⟨w1 ++ w2, by simp [e3, e1], by simp [e2, e4]⟩
  | alt a b iha ihb =>
    intro t t' h
    simp only [run, List.mem_append] at h
    rcases h with h | h
    · exact iha _ _ h
    · exact ihb _ _ h
  | quest a iha =>
    intro t t' h
    simp only [run, List.mem_append, List.mem_singleton] at h
    rcases h with h | h
    · exact iha _ _ h
    · subst h
      exact ⟨[], by simp⟩
  | star p =>
    intro t t' h
    obtain ⟨w, h1, h2, _⟩ := starRun_sound _ _ _ _ _ _ h
    exact ⟨w, h1, h2⟩
  | lazyStar p =>
    intro t t' h
    obtain ⟨w, h1, h2, _⟩ := lazyRun_sound _ _ _ _ _ _ h
    exact ⟨w, h1, h2⟩
  | capture n a iha =>
    intro t t' h
    simp only [run, List.mem_map] at h
    obtain ⟨t1, h1, rfl⟩ := h
    obtain ⟨w, e1, e2⟩ := iha _ _ h1
    refine ⟨w, ?_, ?_⟩
    · simp only [List.nil_append] at e1
      simp [e1]
    · exact e2

theorem matchHere_split (re : Regex) (prev : Option Sym) (rest : Str) (m : Match)
    (h : matchHere re prev rest = some m) :
    m.before = [] ∧ rest = m.text ++ m.thread.rest ∧ m.thread ∈ run re ⟨prev, [], rest, []⟩ := by
  unfold matchHere at h
  simp only [Option.map_eq_some'] at h
  obtain ⟨t, ht, rfl⟩ := h
  obtain ⟨w, e1, e2⟩ := run_sound re _ t (List.mem_of_mem_head? ht)
  simp only [List.nil_append] at e1
  exact ⟨rfl, by simp [e1, ← e2], List.mem_of_mem_head? ht⟩

/-- A match splits the text: what was skipped, the match, what is unread. -/
theorem find_split (re : Regex) (rest : Str) :
    ∀ (prev : Option Sym) (m : Match), find re prev rest = some m →
      rest = m.before ++ m.text ++ m.thread.rest := by
  induction rest with
  | nil =>
    intro prev m h
    simp only [find] at h
    obtain ⟨h1, h2, _⟩ := matchHere_split _ _ _ _ h
    simp [h1, ← h2]
  | cons c cs ih =>
    intro prev m h
    simp only [find] at h
    split at h
    · rename_i m' hm'
      cases h
      obtain ⟨h1, h2, _⟩ := matchHere_split _ _ _ _ hm'
      simp [h1, ← h2]
    · simp only [Option.map_eq_some'] at h
      obtain ⟨m', hm', rfl⟩ := h
      have := ih _ _ hm'
      simp [this]

/-- A replacement function that hands every match back unchanged, and leaves
the state as it is, leaves the text unchanged. -/
theorem replaceAllLoop_id {σ : Type} (re : Regex) (repl : Str → σ → Option (Str × σ)) (st : σ) :
    ∀ (fuel : Nat) (prev : Option Sym) (rest : Str),
      (∀ m ∈ findAllLoop re fuel prev rest, repl m.text st = some (m.text, st)) →
      replaceAllLoop re repl fuel prev rest st = some (rest, st) := by
  intro fuel
  induction fuel with
  | zero => intro prev rest _; rfl
  | succ fuel ih =>
    intro prev rest h
    simp only [findAllLoop, replaceAllLoop] at h ⊢
    cases hf : find re prev rest with
    | none => rfl
    | some m =>
      rw [hf] at h
      simp only at h ⊢
      have hsplit := find_split re rest prev m hf
      split_ifs at h ⊢ with he
      · cases hr : m.thread.rest with
        | nil =>
          rw [hr] at h hsplit
          simp only at h ⊢
          rw [h m (List.mem_singleton.2 rfl)]
          simp [hsplit]
        | cons c cs =>
          rw [hr] at h hsplit
          simp only at h ⊢
          rw [h m (List.mem_cons_self _ _)]
          simp only
          rw [ih (some c) cs fun m' hm' => h m' (List.mem_cons_of_mem _ hm')]
          simp [hsplit]
      · rw [h m (List.mem_cons_self _ _)]
        simp only
        rw [ih _ _ fun m' hm' => h m' (List.mem_cons_of_mem _ hm')]
        simp [hsplit]

theorem ReplaceAllStringFunc_id {σ : Type} (re : Regex) (repl : Str → σ → Option (Str × σ))
    (st : σ) (src : Str)
    (h : ∀ m ∈ FindAllStringSubmatch re src, repl m.text st = some (m.text, st)) :
    ReplaceAllStringFunc re src repl st = some (src, st) :=
  replaceAllLoop_id re repl st _ _ _ h

/-- A text without a match is left alone. -/
theorem ReplaceAllStringFunc_no_match {σ : Type} (re : Regex)
    (repl : Str → σ → Option (Str × σ)) (st : σ) (src : Str) (h : find re none src = none) :
    ReplaceAllStringFunc re src repl st = some (src, st) := by
  simp [ReplaceAllStringFunc, replaceAllLoop, h]

theorem lastOr_append (prev : Option Sym) (xs : Str) (c : Sym) :
    lastOr prev (xs ++ [c]) = some c := by
  induction xs generalizing prev with
  | nil => rfl
  | cons x xs ih => exact ih _

theorem starRun_append (p : Sym → Bool) (caps : List (Nat × Str)) (xs r : Str)
    (h : ∀ x ∈ xs, p x = true) :
    ∀ (prev : Option Sym) (seen : Str),
      starRun p caps prev seen (xs ++ r) =
        starRun p caps (lastOr prev xs) (seen ++ xs) r ++ starBack p caps prev seen xs r := by
  induction xs with
  | nil => intro prev seen; simp [lastOr, starBack]
  | cons x xs ih =>
    intro prev seen
    have hx : p x = true := h x (List.mem_cons_self _ _)
    have := ih (fun y hy => h y (List.mem_cons_of_mem _ hy)) (some x) (seen ++ [x])
    simp only [List.cons_append, starRun, hx, if_true, this, lastOr, starBack, List.append_assoc,
      List.singleton_append, List.append_eq, List.nil_append]

theorem lazy_then_close (inner : Str) (caps : List (Nat × Str))
    (h : ∀ x ∈ inner, anyChar x = true ∧ x ≠ ')') :
    ∀ (prev : Option Sym) (seen : Str),
      run (.seq (.lazyStar anyChar) (.lit ')')) ⟨prev, seen, inner ++ ([')', '"'] : Str), caps⟩ =
        [⟨some ')', seen ++ inner ++ ([')'] : Str), (['"'] : Str), caps⟩] := by
  induction inner with
  | nil =>
    intro prev seen
    have q1 : anyChar ')' = true := by decide
    have q2 : anyChar '"' = true := by decide
    simp [run, lazyRun, Regex.lit, q1, q2]
  | cons x xs ih =>
    intro prev seen
    have hx := h x (List.mem_cons_self _ _)
    have := ih (fun y hy => h y (List.mem_cons_of_mem _ hy)) (some x) (seen ++ [x])
    simp [run, Regex.lit] at this
    simp [run, lazyRun, Regex.lit, hx.1, hx.2, this]


theorem attrNames_cases (name : Str) (h : name ∈ attrNames) :
    name = (['v', '-', 'h', 't', 'm', 'l'] : Str) ∨
    name = ([':', 'p', 'l', 'a', 'c', 'e', 'h', 'o', 'l', 'd', 'e', 'r'] : Str) ∨
    name = ([':', 'l', 'a', 'b', 'e', 'l'] : Str) := by
  simpa [attrNames] using h

/-- An attribute whose value is one call `$t('...)` is matched as a whole. -/
theorem matchHere_attr (name inner : Str) (hname : name ∈ attrNames)
    (h : ∀ x ∈ inner, anyChar x = true ∧ x ≠ ')') :
    ∃ t, matchHere attrRegex none
        (name ++ ('=' : Sym) :: '"' :: '$' :: 't' :: '(' :: '\'' :: (inner ++ ([')', '"'] : Str))) =
      some ⟨[], name ++ ('=' : Sym) :: '"' :: '$' :: 't' :: '(' :: '\'' :: (inner ++ ([')', '"'] : Str)), t⟩ ∧
        t.rest = [] := by
  have gen : ∀ TAIL : Regex,
      (∀ prev seen caps, run TAIL ⟨prev, seen, ('\'' : Sym) :: (inner ++ ([')', '"'] : Str)), caps⟩ =
        [⟨some ')', seen ++ ('\'' : Sym) :: (inner ++ ([')'] : Str)), (['"'] : Str), caps⟩]) →
      ∃ t, matchHere
        (Regex.cat
          (.capture 1 (.alt (.alt (Regex.strFold 'v' "-html".toList)
            (Regex.strFold ':' "placeholder".toList)) (Regex.strFold ':' "label".toList)))
          [.lit '=', .char isQuote,
           .capture 2 (.seq (.star notQuote) (.seq (.lit '$') (.seq (.litFold 't')
             (.seq (.lit '(') TAIL)))),
           .char isQuote]) none
        (name ++ ('=' : Sym) :: '"' :: '$' :: 't' :: '(' :: '\'' :: (inner ++ ([')', '"'] : Str))) =
      some ⟨[], name ++ ('=' : Sym) :: '"' :: '$' :: 't' :: '(' :: '\'' :: (inner ++ ([')', '"'] : Str)), t⟩ ∧
        t.rest = [] := by
    intro TAIL hT
    have q1 : notQuote '\'' = false := by decide
    have q2 : isQuote '"' = true := by decide
    have q3 : notQuote '$' = true := by decide
    have q4 : notQuote 't' = true := by decide
    have q5 : notQuote '(' = true := by decide
    rcases attrNames_cases name hname with rfl | rfl | rfl <;>
      simp [matchHere, Regex.cat, Regex.strFold, Regex.lit, Regex.litFold, Sym.foldEq, run,
        q1, q2, q3, q4, q5, starRun, hT]
  have hL : ∀ prev seen caps,
      run (.seq (.lazyStar anyChar) (.lit ')')) ⟨prev, seen, ('\'' : Sym) :: (inner ++ ([')', '"'] : Str)), caps⟩ =
        [⟨some ')', seen ++ ('\'' : Sym) :: (inner ++ ([')'] : Str)), (['"'] : Str), caps⟩] := by
    intro prev seen caps
    have := lazy_then_close (('\'' : Sym) :: inner) caps ?_ prev seen
    · simpa using this
    · intro x hx
      rcases List.mem_cons.1 hx with rfl | hx
      · exact ⟨by decide, by decide⟩
      · exact h x hx
  exact gen _ hL

theorem replaceAllLoop_nil {σ : Type} (re : Regex) (repl : Str → σ → Option (Str × σ))
    (fuel : Nat) (prev : Option Sym) (st : σ) (h : run re ⟨prev, [], [], []⟩ = []) :
    replaceAllLoop re repl fuel prev [] st = some ([], st) := by
  cases fuel with
  | zero => rfl
  | succ n => simp [replaceAllLoop, find, matchHere, h]

theorem run_attrRegex_nil (prev : Option Sym) : run attrRegex ⟨prev, [], [], []⟩ = [] := by
  simp [attrRegex, Regex.cat, Regex.strFold, Regex.lit, Regex.litFold, run]

/-- The calls of an attribute whose value is one call without a parameter. -/
theorem inner_noparam (d : GoMap) (name : Str) (c : Sym) (k v : Str) (st : Bool)
    (hname : name ∈ attrNames)
    (hc : notQuote c = true) (hk : ∀ x ∈ k, notQuote x = true) (hv : mapGet d (c :: k) = some v) :
    ReplaceAllStringFunc tFuncRegex
      (name ++ ('=' : Sym) :: '"' :: '$' :: 't' :: '(' :: '\'' :: (c :: k ++ (['\''] : Str) ++ ([')', '"'] : Str)))
      (rewriteCall d) st =
    some (name ++ ('=' : Sym) :: '"' :: '$' :: 't' :: '(' :: '\'' :: c :: (k ++ ('\'' : Sym) :: ',' :: ' ' ::
            (formattedJsonValue v ++ ([')', '"'] : Str))), true) := by
  have q1 : notQuote '\'' = false := by decide
  have q2 : isQuote '\'' = true := by decide
  have e1 : (str "('") = (['(', '\''] : Str) := rfl
  have e2 : (str "', ") = (['\'', ',', ' '] : Str) := rfl
  rcases attrNames_cases name hname with rfl | rfl | rfl <;>
    simp [ReplaceAllStringFunc, replaceAllLoop, find, matchHere, rewriteCall, FindStringSubmatch,
      Match.sub, tFuncRegex, Regex.cat, Regex.str, Regex.lit, Regex.plus, run, hc, q1, q2,
      starRun_append notQuote _ k _ hk, starRun, hv, e1, e2, List.lookup]

/-- The closure on a call without parameter, for a key of the dictionary. -/
theorem rewriteCall_noparam (d : GoMap) (f : Str) (c : Sym) (k v : Str) (st : Bool)
    (hf : f = (['$', 't'] : Str) ∨ f = (['t'] : Str))
    (hc : notQuote c = true) (hk : ∀ x ∈ k, notQuote x = true) (hv : mapGet d (c :: k) = some v) :
    rewriteCall d (f ++ ('(' : Sym) :: '\'' :: c :: (k ++ (['\'', ')'] : Str))) st =
      some (f ++ ('(' : Sym) :: '\'' :: c :: (k ++ ('\'' : Sym) :: ',' :: ' ' :: (formattedJsonValue v ++ ([')'] : Str))),
        true) := by
  have q1 : notQuote '\'' = false := by decide
  have q2 : isQuote '\'' = true := by decide
  have e1 : (str "('") = (['(', '\''] : Str) := rfl
  have e2 : (str "', ") = (['\'', ',', ' '] : Str) := rfl
  rcases hf with rfl | rfl <;>
    simp [find, matchHere, rewriteCall, FindStringSubmatch,
      Match.sub, tFuncRegex, Regex.cat, Regex.str, Regex.lit, Regex.plus, run, hc, q1, q2,
      starRun_append notQuote _ k _ hk, starRun, hv, e1, e2, List.lookup]

theorem find_of_matchHere (re : Regex) (prev : Option Sym) (src : Str) (m : Match)
    (h : matchHere re prev src = some m) : find re prev src = some m := by
  cases src with
  | nil => simpa [find] using h
  | cons c cs => simp [find, h]

/-- The text is one match, from its first to its last character. -/
theorem ReplaceAllStringFunc_whole {σ : Type} (re : Regex) (repl : Str → σ → Option (Str × σ))
    (src : Str) (st st' : σ) (out : Str) (t : Thread)
    (hm : matchHere re none src = some ⟨[], src, t⟩) (hne : src ≠ []) (hrest : t.rest = [])
    (hnil : ∀ prev, run re ⟨prev, [], [], []⟩ = []) (hrepl : repl src st = some (out, st')) :
    ReplaceAllStringFunc re src repl st = some (out, st') := by
  have he : src.isEmpty = false := by
    cases src with
    | nil => exact absurd rfl hne
    | cons c cs => rfl
  simp only [ReplaceAllStringFunc, replaceAllLoop, find_of_matchHere re none src _ hm, hrepl, he,
    hrest, replaceAllLoop_nil re repl _ _ _ (hnil _)]
  simp

/-- An attribute with one call without parameter, for a key of the dictionary. -/
theorem processFileContent_noparam (d : GoMap) (name k v : Str) (hname : name ∈ attrNames)
    (hne : k ≠ []) (hk : ∀ x ∈ k, notQuote x = true ∧ anyChar x = true ∧ x ≠ ')')
    (hv : mapGet d k = some v) :
    processFileContent (name ++ (str "=\"$t('") ++ k ++ (str "')\"")) d =
      some (name ++ (str "=\"$t('") ++ k ++ (str "', ") ++ formattedJsonValue v
        ++ (str ")\""), true) := by
  obtain ⟨c, k, rfl⟩ := List.exists_cons_of_ne_nil hne
  have hc := hk c (List.mem_cons_self _ _)
  have hk' : ∀ x ∈ k, notQuote x = true := fun x hx => (hk x (List.mem_cons_of_mem _ hx)).1
  obtain ⟨t, ht, hrest⟩ := matchHere_attr name (c :: k ++ (['\''] : Str)) hname (by
    intro x hx
    rcases List.mem_append.1 hx with hx | hx
    · exact (hk x hx).2
    · rw [List.mem_singleton.1 hx]; exact ⟨by decide, by decide⟩)
  have e := ReplaceAllStringFunc_whole attrRegex
    (fun attrMatch modified => ReplaceAllStringFunc tFuncRegex attrMatch (rewriteCall d) modified)
    _ false true _ t ht (by simp) hrest run_attrRegex_nil
    (inner_noparam d name c k v false hname hc.1 hk' hv)
  have e0 : (str "=\"$t('") = (['=', '"', '$', 't', '(', '\''] : Str) := rfl
  have e1 : (str "')\"") = (['\'', ')', '"'] : Str) := rfl
  have e2 : (str "', ") = (['\'', ',', ' '] : Str) := rfl
  have e3 : (str ")\"") = ([')', '"'] : Str) := rfl
  rw [e0, e1, e2, e3]
  simpa [processFileContent] using e

/-! ## Content without a recognized attribute -/

theorem startsFold_of_run_strFold (s : List Char) :
    ∀ (a : Char) (t t' : Thread) (tl : List Char),
      t' ∈ run (Regex.cat (.litFold a) (s.map Regex.litFold)) t →
      startsFold tl t'.rest = true → startsFold (a :: s ++ tl) t.rest = true := by
  induction s with
  | nil =>
    intro a t t' tl h htl
    simp only [List.map_nil, Regex.cat, Regex.litFold, run] at h
    split at h
    · rename_i c cs hr
      split_ifs at h with hp
      · simp only [List.mem_singleton] at h
        subst h
        simp [hr, startsFold, htl, hp]
      · cases h
    · cases h
  | cons b s ih =>
    intro a t t' tl h htl
    simp only [List.map_cons, Regex.cat, run, List.mem_flatMap] at h
    obtain ⟨t1, h1, h2⟩ := h
    have h3 := ih b t1 t' tl h2 htl
    split at h1
    · rename_i c cs hr
      split_ifs at h1 with hp
      · simp only [List.mem_singleton] at h1
        subst h1
        simp only [List.cons_append] at h3 ⊢
        simp [hr, startsFold, h3, hp]
      · cases h1
    · cases h1

theorem run_names_eq (A B C R : Regex) (n : Nat) (t t' : Thread)
    (h : t' ∈ run (.seq (.capture n (.alt (.alt A B) C)) (.seq (.lit '=') R)) t) :
    ∃ t0, (t0 ∈ run A { t with seen := [] } ∨ t0 ∈ run B { t with seen := [] } ∨
        t0 ∈ run C { t with seen := [] }) ∧ startsFold ['='] t0.rest = true := by
  simp only [run, List.mem_flatMap, List.mem_map, List.mem_append] at h
  obtain ⟨t1, ⟨t0, h0, rfl⟩, t2, h2, -⟩ := h
  refine ⟨t0, ?_, ?_⟩
  · rcases h0 with (h0 | h0) | h0
    · exact Or.inl h0
    · exact Or.inr (Or.inl h0)
    · exact Or.inr (Or.inr h0)
  · simp only [Regex.lit] at h2
    split at h2
    · rename_i c cs hr
      split_ifs at h2 with hp
      · have : c = '=' := by simpa using hp
        subst this
        rw [hr]
        simp [startsFold, Sym.foldEq]
      · cases h2
    · cases h2

/-- Where `attrRegex` matches, an attribute name and `=` stand. -/
theorem attrNameAt_of_run (t t' : Thread) (h : t' ∈ run attrRegex t) :
    attrNameAt t.rest = true := by
  obtain ⟨t0, h0, heq⟩ := run_names_eq (Regex.strFold 'v' "-html".toList)
    (Regex.strFold ':' "placeholder".toList) (Regex.strFold ':' "label".toList) _ 1 t t' h
  unfold attrNameAt
  rcases h0 with h0 | h0 | h0
  · have := startsFold_of_run_strFold _ _ _ _ _ h0 heq
    have e : "v-html=".toList = 'v' :: "-html".toList ++ ['='] := rfl
    rw [e, this]
    rfl
  · have := startsFold_of_run_strFold _ _ _ _ _ h0 heq
    have e : ":placeholder=".toList = ':' :: "placeholder".toList ++ ['='] := rfl
    rw [e, this]
    simp
  · have := startsFold_of_run_strFold _ _ _ _ _ h0 heq
    have e : ":label=".toList = ':' :: "label".toList ++ ['='] := rfl
    rw [e, this]
    simp

theorem matchHere_attr_none (prev : Option Sym) (s : Str) (h : attrNameAt s = false) :
    matchHere attrRegex prev s = none := by
  unfold matchHere
  cases hr : run attrRegex ⟨prev, [], s, []⟩ with
  | nil => rfl
  | cons t ts =>
    have := attrNameAt_of_run ⟨prev, [], s, []⟩ t (by rw [hr]; exact List.mem_cons_self _ _)
    simp only at this
    rw [h] at this
    cases this

theorem find_attr_none (content : Str) (h : hasAttr content = false) :
    ∀ prev, find attrRegex prev content = none := by
  induction content with
  | nil =>
    intro prev
    simp only [find]
    exact matchHere_attr_none prev [] (by decide)
  | cons c cs ih =>
    intro prev
    simp only [hasAttr, Bool.or_eq_false_iff] at h
    simp only [find, matchHere_attr_none prev _ h.1, ih h.2, Option.map_none']


theorem key_chars (k : Str) (hk : ∀ x ∈ k, x ≠ '\'' ∧ x ≠ '"' ∧ x ≠ ')' ∧ x ≠ '\n') :
    ∀ x ∈ k, notQuote x = true ∧ anyChar x = true ∧ x ≠ ')' := by
  intro x hx
  obtain ⟨h1, h2, h3, h4⟩ := hk x hx
  simp [notQuote, isQuote, anyChar, h1, h2, h3, h4]

/-! ## The claims on the default-value injector -/

theorem escapeSingleQuotes_eq (v : Str) : escapeSingleQuotes v = escapedQuotes v := by
  induction v with
  | nil => rfl
  | cons c cs ih =>
    simp only [escapeSingleQuotes, stringsReplaceAll, List.flatMap_cons] at ih ⊢
    rw [ih]
    by_cases h : c = Sym.rune '\''
    · simp [escapedQuotes, h]
    · simp [escapedQuotes, h]

/-- C5: the rewrite is scoped to the recognized attributes.  For a key `k`
(not empty, without quote, closing parenthesis or newline) that the dictionary
maps to a value `v` without `<`, the content `:placeholder="$t('k')"` becomes
`:placeholder="$t('k', 'w')"`, `w` being `v` with every single quote replaced by
a backslash and a single quote, and `modified` is set; and a content in which
none of the attributes `v-html=`, `:placeholder=`, `:label=` appears (in any
letter case), whatever calls it contains, is returned as it is, with `modified`
false. -/
theorem processFileContent_attribute_scoped (k v : Str) (jsonMap : GoMap) (content : Str)
    (hne : k ≠ []) (hk : ∀ x ∈ k, x ≠ '\'' ∧ x ≠ '"' ∧ x ≠ ')' ∧ x ≠ '\n')
    (hv : mapGet jsonMap k = some v) (hlt : stringsContains v '<' = false)
    (hc : hasAttr content = false) :
    processFileContent ((str ":placeholder") ++ (str "=\"$t('") ++ k ++ (str "')\"")) jsonMap =
      some ((str ":placeholder") ++ (str "=\"$t('") ++ k ++ (str "', ")
        ++ (str "'" ++ escapedQuotes v ++ str "'") ++ (str ")\""), true) ∧
    processFileContent content jsonMap = some (content, false) := by
  constructor
  · have h := processFileContent_noparam jsonMap (str ":placeholder") k v (by decide) hne
      (key_chars k hk) hv
    rw [h]
    have e : str "'" = ([Sym.rune '\''] : Str) := rfl
    simp [formattedJsonValue, hlt, escapeSingleQuotes_eq, e]
  · exact ReplaceAllStringFunc_no_match attrRegex _ false content (find_attr_none content hc none)

/-- The examples of C5: the key `hint` with the value `Enter name`, and with the
value `it's`, in a `:placeholder` attribute and in the text of an element. -/
theorem processFileContent_attribute_scoped_witness :
    (processFileContent (str ":placeholder=\"$t('hint')\"") [(str "hint", str "Enter name")] =
        some (str ":placeholder=\"$t('hint', 'Enter name')\"", true) ∧
      processFileContent (str "<p>\x7b\x7b $t('hint') \x7d\x7d</p>")
          [(str "hint", str "Enter name")] =
        some (str "<p>\x7b\x7b $t('hint') \x7d\x7d</p>", false)) ∧
    (escapedQuotes (str "it's") = str "it\\'s" ∧
      processFileContent (str ":placeholder=\"$t('hint')\"") [(str "hint", str "it's")] =
        some (str ":placeholder=\"$t('hint', 'it\\'s')\"", true) ∧
      processFileContent (str "<p>\x7b\x7b $t('hint') \x7d\x7d</p>") [(str "hint", str "it's")] =
        some (str "<p>\x7b\x7b $t('hint') \x7d\x7d</p>", false)) :=
  ⟨processFileContent_attribute_scoped (str "hint") (str "Enter name")
      [(str "hint", str "Enter name")] (str "<p>\x7b\x7b $t('hint') \x7d\x7d</p>")
      (by decide) (by decide) (by decide) (by decide) (by decide),
    by decide,
    processFileContent_attribute_scoped (str "hint") (str "it's")
      [(str "hint", str "it's")] (str "<p>\x7b\x7b $t('hint') \x7d\x7d</p>")
      (by decide) (by decide) (by decide) (by decide) (by decide)⟩

/-- C6 fails as stated: for `:label="$t('k', {n: 1})"` and the value `V` the code
writes `$t('k', {n: 1}, 'V')`, not `$t('k', 'V', {n: 1})`.  The call and its
parameter are what the patterns read: in `$t('k', fn(1))` the parameter ends at
the first closing parenthesis, and an attribute whose value runs over two lines
is not recognized, so that its call is left as it is. -/
theorem processFileContent_value_after_param_counterexample :
    (processFileContent (str ":label=\"$t('k', \x7bn: 1\x7d)\"") [(str "k", str "V")] =
        some (str ":label=\"$t('k', \x7bn: 1\x7d, 'V')\"", true) ∧
      processFileContent (str ":label=\"$t('k', \x7bn: 1\x7d)\"") [(str "k", str "V")] ≠
        some (str ":label=\"$t('k', 'V', \x7bn: 1\x7d)\"", true)) ∧
    (processFileContent (str ":label=\"$t('k', fn(1))\"") [(str "k", str "V")] =
        some (str ":label=\"$t('k', fn(1, 'V'))\"", true) ∧
      processFileContent (str ":label=\"$t('k', fn(1))\"") [(str "k", str "V")] ≠
        some (str ":label=\"$t('k', 'V', fn(1))\"", true)) ∧
    processFileContent (str ":label=\"$t('k', \x7b\n  n: 1\x7d)\"") [(str "k", str "V")] =
      some (str ":label=\"$t('k', \x7b\n  n: 1\x7d)\"", false) := by
  decide

/-- C7 as the code has it: for a value `v` of the dictionary that contains `<`,
the literal that is inserted is `v` with every double quote replaced by a single
quote, between backticks.  This is the value of `formattedJsonValue`, what the
closure of `processFileContent` inserts into a call `f('k')`, `f` being `$t` or
`t`, and what `processFileContent` inserts into the call `$t('k')` in one of the
three attributes. -/
theorem processFileContent_markup_quoting (jsonMap : GoMap) (name f k v : Str) (st : Bool)
    (hname : name ∈ attrNames) (hf : f = (str "$t") ∨ f = (str "t"))
    (hne : k ≠ []) (hk : ∀ x ∈ k, x ≠ '\'' ∧ x ≠ '"' ∧ x ≠ ')' ∧ x ≠ '\n')
    (hv : mapGet jsonMap k = some v) (hlt : stringsContains v '<' = true) :
    formattedJsonValue v = (['`'] : Str) ++ stringsReplaceAll v '"' (['\''] : Str) ++ (['`'] : Str) ∧
    rewriteCall jsonMap (f ++ (str "('") ++ k ++ (str "')")) st =
      some (f ++ (str "('") ++ k ++ (str "', ")
        ++ ((['`'] : Str) ++ stringsReplaceAll v '"' (['\''] : Str) ++ (['`'] : Str)) ++ (str ")"), true) ∧
    processFileContent (name ++ (str "=\"$t('") ++ k ++ (str "')\"")) jsonMap =
      some (name ++ (str "=\"$t('") ++ k ++ (str "', ")
        ++ ((['`'] : Str) ++ stringsReplaceAll v '"' (['\''] : Str) ++ (['`'] : Str)) ++ (str ")\""), true) := by
  have hfmt : formattedJsonValue v = (['`'] : Str) ++ stringsReplaceAll v '"' (['\''] : Str) ++ (['`'] : Str) := by
    simp [formattedJsonValue, hlt]
  refine ⟨hfmt, ?_, ?_⟩
  · obtain ⟨c, k, rfl⟩ := List.exists_cons_of_ne_nil hne
    have hk' := key_chars _ hk
    have h := rewriteCall_noparam jsonMap f c k v st hf (hk' c (List.mem_cons_self _ _)).1
      (fun x hx => (hk' x (List.mem_cons_of_mem _ hx)).1) hv
    have e1 : (str "('") = (['(', '\''] : Str) := rfl
    have e2 : (str "', ") = (['\'', ',', ' '] : Str) := rfl
    have e3 : (str "')") = (['\'', ')'] : Str) := rfl
    have e4 : (str ")") = ([')'] : Str) := rfl
    rw [e1, e2, e3, e4, ← hfmt]
    simpa using h
  · rw [← hfmt]
    exact processFileContent_noparam jsonMap name k v hname hne (key_chars k hk) hv

/-- The examples of C7: `<b>Bold</b>`, and a markup value with double quotes. -/
theorem processFileContent_markup_quoting_witness :
    (formattedJsonValue (str "<b>Bold</b>") =
        (['`'] : Str) ++ stringsReplaceAll (str "<b>Bold</b>") '"' (['\''] : Str) ++ (['`'] : Str) ∧
      rewriteCall [((str "note"), (str "<b>Bold</b>"))]
          ((str "$t") ++ (str "('") ++ (str "note") ++ (str "')")) false =
        some ((str "$t") ++ (str "('") ++ (str "note") ++ (str "', ")
          ++ ((['`'] : Str) ++ stringsReplaceAll (str "<b>Bold</b>") '"' (['\''] : Str) ++ (['`'] : Str))
          ++ (str ")"), true) ∧
      processFileContent ((str "v-html") ++ (str "=\"$t('") ++ (str "note") ++ (str "')\""))
          [((str "note"), (str "<b>Bold</b>"))] =
        some ((str "v-html") ++ (str "=\"$t('") ++ (str "note") ++ (str "', ")
          ++ ((['`'] : Str) ++ stringsReplaceAll (str "<b>Bold</b>") '"' (['\''] : Str) ++ (['`'] : Str))
          ++ (str ")\""), true)) ∧
    processFileContent (str "v-html=\"$t('note')\"")
        [((str "note"), (str "<b>Bold</b>"))] =
      some ((str "v-html=\"$t('note', `<b>Bold</b>`)\""), true) ∧
    processFileContent (str "v-html=\"$t('note')\"")
        [((str "note"), (str "<b>Say \"hi\"</b>"))] =
      some ((str "v-html=\"$t('note', `<b>Say 'hi'</b>`)\""), true) :=
  ⟨processFileContent_markup_quoting [((str "note"), (str "<b>Bold</b>"))] (str "v-html")
      (str "$t") (str "note") (str "<b>Bold</b>") false (by decide) (by decide) (by decide)
      (by decide) (by decide) (by decide),
    by decide, by decide⟩

/-- C7 fails as stated: the value `Say "hi"` has a double quote and no `<`, and
is inserted between single quotes with its double quotes kept. -/
theorem processFileContent_markup_quoting_counterexample :
    stringsContains (str "Say \"hi\"") '"' = true ∧
    processFileContent (str ":placeholder=\"$t('say')\"")
        [((str "say"), (str "Say \"hi\""))] =
      some ((str ":placeholder=\"$t('say', 'Say \"hi\"')\""), true) ∧
    processFileContent (str ":placeholder=\"$t('say')\"")
        [((str "say"), (str "Say \"hi\""))] ≠
      some ((str ":placeholder=\"$t('say', `Say 'hi'`)\""), true) := by
  decide

/-- C10 fails on the code: a second run changes an already rewritten file again.
The backtick literal written for a value with `<` is not recognized as a
literal, and a parameter that is no literal hides the value appended after it. -/
theorem processFileContent_second_run :
    processFileContent (str "v-html=\"$t('note')\"") [((str "note"), (str "<b>Bold</b>"))] =
      some ((str "v-html=\"$t('note', `<b>Bold</b>`)\""), true) ∧
    processFileContent (str "v-html=\"$t('note', `<b>Bold</b>`)\"")
        [((str "note"), (str "<b>Bold</b>"))] =
      some ((str "v-html=\"$t('note', `<b>Bold</b>`, `<b>Bold</b>`)\""), true) ∧
    processFileContent (str ":label=\"$t('k', \x7bn: 1\x7d)\"") [((str "k"), (str "V"))] =
      some ((str ":label=\"$t('k', \x7bn: 1\x7d, 'V')\""), true) ∧
    processFileContent (str ":label=\"$t('k', \x7bn: 1\x7d, 'V')\"") [((str "k"), (str "V"))] =
      some ((str ":label=\"$t('k', \x7bn: 1\x7d, 'V', 'V')\""), true) := by
  decide


/-! ## The threads of the scanning pattern -/

theorem mem_run_seq (a b : Regex) (t t' : Thread) :
    t' ∈ run (.seq a b) t ↔ ∃ t1, t1 ∈ run a t ∧ t' ∈ run b t1 := by
  simp only [run, List.mem_flatMap]

theorem mem_run_char (p : Sym → Bool) (t t' : Thread) (h : t' ∈ run (.char p) t) :
    ∃ c, p c = true ∧ t.rest = c :: t'.rest ∧ t'.seen = t.seen ++ [c] ∧ t'.caps = t.caps := by
  simp only [run] at h
  split at h
  · rename_i c cs hr
    split_ifs at h with hp
    · simp only [List.mem_singleton] at h
      subst h
      exact ⟨c, hp, hr, rfl, rfl⟩
    · cases h
  · cases h

theorem mem_run_wordBoundary (t t' : Thread) (h : t' ∈ run .wordBoundary t) : t' = t := by
  simp only [run] at h
  split_ifs at h
  · exact List.mem_singleton.1 h
  · cases h

theorem starRun_pred (p : Sym → Bool) (caps : List (Nat × Str)) (rest : Str) :
    ∀ (prev : Option Sym) (seen : Str) (t : Thread), t ∈ starRun p caps prev seen rest →
      ∃ w, t.seen = seen ++ w ∧ rest = w ++ t.rest ∧ t.caps = caps ∧ ∀ x ∈ w, p x = true := by
  induction rest with
  | nil =>
    intro prev seen t ht
    simp only [starRun, List.mem_singleton] at ht
    subst ht
    exact ⟨[], by simp⟩
  | cons c cs ih =>
    intro prev seen t ht
    simp only [starRun, List.mem_append, List.mem_singleton] at ht
    rcases ht with ht | ht
    · split_ifs at ht with hp
      · obtain ⟨w, h1, h2, h3, h4⟩ := ih _ _ t ht
        refine ⟨c :: w, by simp [h1], by simp [h2], h3, ?_⟩
        intro x hx
        rcases List.mem_cons.1 hx with rfl | hx
        · exact hp
        · exact h4 x hx
      · cases ht
    · subst ht
      exact ⟨[], by simp⟩

/-- The threads of `(\$t|t)`: one of the two names has been consumed. -/
theorem mem_run_funcName (n : Nat) (t t' : Thread)
    (h : t' ∈ run (.capture n (.alt (Regex.str '$' (['t'] : Str)) (.lit 't'))) t) :
    ∃ w, t.rest = w ++ t'.rest ∧ (∀ x ∈ w, notQuote x = true) := by
  simp only [run, List.mem_map, List.mem_append] at h
  obtain ⟨t0, h0, rfl⟩ := h
  rcases h0 with h0 | h0
  · have h0' : t0 ∈ run (.seq (.lit '$') (.lit 't')) { t with seen := [] } := h0
    obtain ⟨t1, h1, h2⟩ := (mem_run_seq _ _ _ _).1 h0'
    obtain ⟨c1, hc1, e1, -, -⟩ := mem_run_char _ _ _ h1
    obtain ⟨c2, hc2, e2, -, -⟩ := mem_run_char _ _ _ h2
    have : c1 = '$' := by simpa using hc1
    subst this
    have : c2 = 't' := by simpa using hc2
    subst this
    simp only at e1
    refine ⟨(['$', 't'] : Str), by simp [e1, e2], ?_⟩
    decide
  · have h0' : t0 ∈ run (.lit 't') { t with seen := [] } := h0
    obtain ⟨c1, hc1, e1, -, -⟩ := mem_run_char _ _ _ h0'
    have : c1 = 't' := by simpa using hc1
    subst this
    simp only at e1
    refine ⟨(['t'] : Str), by simp [e1], ?_⟩
    decide

/-- The threads of the group `([^'"]+)`: its text is a non-empty run without
quotes. -/
theorem mem_run_keyGroup (n : Nat) (t t' : Thread)
    (h : t' ∈ run (.capture n (Regex.plus notQuote)) t) :
    ∃ K, t.rest = K ++ t'.rest ∧ K ≠ [] ∧ (∀ x ∈ K, notQuote x = true) ∧
      t'.caps = (n, K) :: t.caps := by
  simp only [run, List.mem_map] at h
  obtain ⟨t0, h0, rfl⟩ := h
  have h0' : t0 ∈ run (.seq (.char notQuote) (.star notQuote)) { t with seen := [] } := h0
  obtain ⟨t1, h1, h2⟩ := (mem_run_seq _ _ _ _).1 h0'
  obtain ⟨c, hc, e1, e2, e3⟩ := mem_run_char _ _ _ h1
  have h2' : t0 ∈ starRun notQuote t1.caps t1.prev t1.seen t1.rest := h2
  obtain ⟨w, f1, f2, f3, f4⟩ := starRun_pred _ _ _ _ _ _ h2'
  simp only [List.nil_append] at e2
  simp only at e1 e3
  refine ⟨c :: w, ?_, by simp, ?_, ?_⟩
  · simp [e1, f2]
  · intro x hx
    rcases List.mem_cons.1 hx with rfl | hx
    · exact hc
    · exact f4 x hx
  · simp [f1, e2, f3, e3]

/-- Every thread of the scanning pattern has read a call up to the closing quote
of its key: some text without quotes, a quote, the key, a quote. -/
theorem scan_thread (prev : Option Sym) (text : Str) (t' : Thread)
    (h : t' ∈ run tFuncRegexScan ⟨prev, [], text, []⟩) :
    ∃ pre q K q', text = pre ++ q :: (K ++ q' :: t'.rest) ∧ (∀ x ∈ pre, notQuote x = true) ∧
      isQuote q = true ∧ K ≠ [] ∧ (∀ x ∈ K, notQuote x = true) ∧ isQuote q' = true ∧
      t'.caps.lookup 2 = some K := by
  have h' : t' ∈ run (.seq .wordBoundary (.seq (.capture 1 (.alt (Regex.str '$' (['t'] : Str)) (.lit 't')))
      (.seq (.lit '(') (.seq (.star isSpace) (.seq (.char isQuote)
        (.seq (.capture 2 (Regex.plus notQuote)) (.char isQuote))))))) ⟨prev, [], text, []⟩ := h
  obtain ⟨ta, ha, h1⟩ := (mem_run_seq _ _ _ _).1 h'
  obtain ⟨tb, hb, h2⟩ := (mem_run_seq _ _ _ _).1 h1
  obtain ⟨tc, hc, h3⟩ := (mem_run_seq _ _ _ _).1 h2
  obtain ⟨td, hd, h4⟩ := (mem_run_seq _ _ _ _).1 h3
  obtain ⟨te, he, h5⟩ := (mem_run_seq _ _ _ _).1 h4
  obtain ⟨tf, hf, h6⟩ := (mem_run_seq _ _ _ _).1 h5
  have ea := mem_run_wordBoundary _ _ ha
  subst ea
  obtain ⟨w1, eb, pb⟩ := mem_run_funcName _ _ _ hb
  obtain ⟨c, pc, ec, -, -⟩ := mem_run_char _ _ _ hc
  have hd' : td ∈ starRun isSpace tc.caps tc.prev tc.seen tc.rest := hd
  obtain ⟨w2, -, ed, -, pd⟩ := starRun_pred _ _ _ _ _ _ hd'
  obtain ⟨q, pq, eq, -, -⟩ := mem_run_char _ _ _ he
  obtain ⟨K, eK, hK, pK, cK⟩ := mem_run_keyGroup _ _ _ hf
  obtain ⟨q', pq', eq', -, cq'⟩ := mem_run_char _ _ _ h6
  have hc' : c = '(' := by simpa [Regex.lit] using pc
  subst hc'
  simp only at eb
  refine ⟨w1 ++ ('(' : Sym) :: w2, q, K, q', ?_, ?_, pq, hK, pK, pq', ?_⟩
  · rw [eb, ec, ed, eq, eK, eq']
    simp
  · intro x hx
    rcases List.mem_append.1 hx with hx | hx
    · exact pb x hx
    · rcases List.mem_cons.1 hx with rfl | hx
      · decide
      · have := pd x hx
        revert this
        simp only [isSpace, notQuote, isQuote, Bool.or_eq_true, beq_iff_eq]
        rintro ((((rfl | rfl) | rfl) | rfl) | rfl) <;> decide
  · rw [cq', cK]
    simp [List.lookup]

/-- The text up to the first quote, and what follows it, are determined. -/
theorem first_quote_unique (a a' b b' : Str) (q q' : Sym)
    (ha : ∀ x ∈ a, notQuote x = true) (ha' : ∀ x ∈ a', notQuote x = true)
    (hq : isQuote q = true) (hq' : isQuote q' = true) (h : a ++ q :: b = a' ++ q' :: b') :
    a = a' ∧ q = q' ∧ b = b' := by
  induction a generalizing a' with
  | nil =>
    cases a' with
    | nil => simpa using h
    | cons y a' =>
      exfalso
      simp only [List.nil_append, List.cons_append, List.cons.injEq] at h
      have := ha' y (List.mem_cons_self _ _)
      rw [← h.1] at this
      simp [notQuote, hq] at this
  | cons x a ih =>
    cases a' with
    | nil =>
      exfalso
      simp only [List.nil_append, List.cons_append, List.cons.injEq] at h
      have := ha x (List.mem_cons_self _ _)
      rw [h.1] at this
      simp [notQuote, hq'] at this
    | cons y a' =>
      simp only [List.cons_append, List.cons.injEq] at h
      obtain ⟨e1, e2, e3⟩ := ih a' (fun z hz => ha z (List.mem_cons_of_mem _ hz))
        (fun z hz => ha' z (List.mem_cons_of_mem _ hz)) h.2
      exact ⟨by rw [h.1, e1], e2, e3⟩


/-- At a call `t(q K q'` that follows no word character the scanning pattern
matches. -/
theorem matchHere_scan_call (prev : Option Sym) (q q' c : Sym) (K R : Str)
    (hb : isWordAt prev = false) (hq : isQuote q = true) (hq' : isQuote q' = true)
    (hc : notQuote c = true) (hK : ∀ x ∈ K, notQuote x = true) :
    ∃ t, matchHere tFuncRegexScan prev (('t' : Sym) :: '(' :: q :: c :: (K ++ q' :: R)) =
        some ⟨[], ('t' : Sym) :: '(' :: q :: c :: (K ++ [q']), t⟩ ∧
      t.rest = R ∧ t.caps.lookup 2 = some (c :: K) := by
  have q1 : isWordAt (some 't') = true := by decide
  have q2 : isSpace q = false := by
    revert hq
    simp only [isQuote, isSpace, Bool.or_eq_true, beq_iff_eq]
    rintro (rfl | rfl) <;> decide
  have q3 : notQuote q' = false := by simp [notQuote, hq']
  simp [matchHere, tFuncRegexScan, Regex.cat, Regex.str, Regex.lit, Regex.plus, run, hb,
    q1, q2, q3, hq, hq', hc, starRun_append notQuote _ K _ hK, starRun, List.lookup]

theorem scan_thread_seen (prev : Option Sym) (text : Str) (t' : Thread)
    (h : t' ∈ run tFuncRegexScan ⟨prev, [], text, []⟩) : t'.seen ≠ [] := by
  obtain ⟨w, e1, e2⟩ := run_sound _ _ _ h
  obtain ⟨pre, q, K, q', e, -⟩ := scan_thread prev text t' h
  simp only [List.nil_append] at e1
  simp only at e2
  intro hs
  rw [hs] at e1
  subst e1
  have := congrArg List.length (e2.symm.trans e)
  simp at this
  omega

theorem findAllLoop_cons (re : Regex) (fuel : Nat) (prev : Option Sym) (rest : Str) (m : Match)
    (h : find re prev rest = some m) (hne : m.text.isEmpty = false) :
    findAllLoop re (fuel + 1) prev rest = m :: findAllLoop re fuel m.thread.prev m.thread.rest := by
  simp [findAllLoop, h, hne]

theorem lastOr_eq (pre : Str) : ∀ prev, lastOr prev pre = (pre.getLast?).or prev := by
  induction pre with
  | nil => intro prev; rfl
  | cons x xs ih =>
    intro prev
    rw [lastOr, ih]
    cases xs with
    | nil => rfl
    | cons y ys =>
      rw [List.getLast?_cons_cons]
      cases h : (y :: ys).getLast? with
      | none => simp at h
      | some z => rfl

theorem notQuote_of_ne (k : Str) (hk : ∀ x ∈ k, x ≠ '\'' ∧ x ≠ '"') :
    ∀ x ∈ k, notQuote x = true := by
  intro x hx
  obtain ⟨h1, h2⟩ := hk x hx
  simp [notQuote, isQuote, h1, h2]

theorem mem_mapKeys_scan (files : List Str) (existingKeys : GoMap) (text : Str) (m : Match)
    (hfile : text ∈ files) (hm : m ∈ FindAllStringSubmatch tFuncRegexScan text) :
    m.sub 2 ∈ mapKeys (scanForI18nKeys files existingKeys) := by
  rw [scanForI18nKeys_eq, mem_mapKeys_jsonDataFrom]
  refine Or.inr ?_
  simp only [scannedKeys, List.mem_flatMap, List.mem_map]
  exact ⟨text, hfile, m, hm, rfl⟩

/-! ## The scan reaches a call -/

theorem lastOr_append_list (X Y : Str) : ∀ (p : Option Sym),
    lastOr p (X ++ Y) = lastOr (lastOr p X) Y := by
  induction X with
  | nil => intro p; rfl
  | cons x X ih => intro p; exact ih _

theorem lastOr_ne_nil (p p' : Option Sym) (Y : Str) (h : Y ≠ []) : lastOr p Y = lastOr p' Y := by
  cases Y with
  | nil => exact absurd rfl h
  | cons y Y => rfl

theorem isWordAt_quote (q : Sym) (hq : isQuote q = true) : isWordAt (some q) = false := by
  revert hq
  simp only [isQuote, Bool.or_eq_true, beq_iff_eq]
  rintro (rfl | rfl) <;> decide

theorem mem_run_char_prev (p : Sym → Bool) (t t' : Thread) (h : t' ∈ run (.char p) t) :
    ∃ c, p c = true ∧ t'.prev = some c := by
  simp only [run] at h
  split at h
  · rename_i c cs hr
    split_ifs at h with hp
    · simp only [List.mem_singleton] at h
      subst h
      exact ⟨c, hp, rfl⟩
    · cases h
  · cases h

/-- A thread of the scanning pattern has read a quote last. -/
theorem scan_thread_prev (prev : Option Sym) (text : Str) (t' : Thread)
    (h : t' ∈ run tFuncRegexScan ⟨prev, [], text, []⟩) :
    ∃ c, isQuote c = true ∧ t'.prev = some c := by
  have h' : t' ∈ run (.seq .wordBoundary (.seq (.capture 1 (.alt (Regex.str '$' (['t'] : Str)) (.lit 't')))
      (.seq (.lit '(') (.seq (.star isSpace) (.seq (.char isQuote)
        (.seq (.capture 2 (Regex.plus notQuote)) (.char isQuote))))))) ⟨prev, [], text, []⟩ := h
  obtain ⟨ta, -, h1⟩ := (mem_run_seq _ _ _ _).1 h'
  obtain ⟨tb, -, h2⟩ := (mem_run_seq _ _ _ _).1 h1
  obtain ⟨tc, -, h3⟩ := (mem_run_seq _ _ _ _).1 h2
  obtain ⟨td, -, h4⟩ := (mem_run_seq _ _ _ _).1 h3
  obtain ⟨te, -, h5⟩ := (mem_run_seq _ _ _ _).1 h4
  obtain ⟨tf, -, h6⟩ := (mem_run_seq _ _ _ _).1 h5
  exact mem_run_char_prev _ _ _ h6

/-- A text has no quote, or it has a first quote. -/
theorem quote_split (A : Str) : (∀ x ∈ A, notQuote x = true) ∨
    ∃ u q B, A = u ++ q :: B ∧ (∀ x ∈ u, notQuote x = true) ∧ isQuote q = true := by
  induction A with
  | nil => left; simp
  | cons a A ih =>
    by_cases ha : isQuote a = true
    · right; exact ⟨[], a, A, rfl, by simp, ha⟩
    · have ha' : notQuote a = true := by simp [notQuote, ha]
      rcases ih with h | ⟨u, q, B, e, hu, hq⟩
      · left
        intro x hx
        rcases List.mem_cons.1 hx with rfl | hx
        · exact ha'
        · exact h x hx
      · right
        refine ⟨a :: u, q, B, by simp [e], ?_, hq⟩
        intro x hx
        rcases List.mem_cons.1 hx with rfl | hx
        · exact ha'
        · exact hu x hx

theorem matchHere_eta (re : Regex) (prev : Option Sym) (s : Str) (m : Match)
    (h : matchHere re prev s = some m) : matchHere re prev s = some ⟨[], m.text, m.thread⟩ := by
  have hb := (matchHere_split _ _ _ _ h).1
  rw [h, ← hb]

/-- When the pattern matches at the end of `A`, the first match at or after the
cursor starts in `A` or at its end. -/
theorem find_at (re : Regex) (R : Str) (A : Str) :
    ∀ (prev : Option Sym) (m0 : Match), matchHere re (lastOr prev A) R = some m0 →
      ∃ m A1 A2, find re prev (A ++ R) = some m ∧ A = A1 ++ A2 ∧ m.before = A1 ∧
        matchHere re (lastOr prev A1) (A2 ++ R) = some ⟨[], m.text, m.thread⟩ := by
  induction A with
  | nil =>
    intro prev m0 h
    have h' : matchHere re prev R = some m0 := h
    exact ⟨m0, [], [], find_of_matchHere _ _ _ _ h', rfl, (matchHere_split _ _ _ _ h').1,
      matchHere_eta _ _ _ _ h'⟩
  | cons x A ih =>
    intro prev m0 h
    cases hm : matchHere re prev (x :: A ++ R) with
    | some m =>
      exact ⟨m, [], x :: A, find_of_matchHere _ _ _ _ hm, rfl, (matchHere_split _ _ _ _ hm).1,
        matchHere_eta _ _ _ _ hm⟩
    | none =>
      have h' : matchHere re (lastOr (some x) A) R = some m0 := h
      obtain ⟨m, A1, A2, hf, e, hb, hh⟩ := ih (some x) m0 h'
      refine ⟨{ m with before := x :: m.before }, x :: A1, A2, ?_, by simp [e], by simp [hb], hh⟩
      simp only [List.cons_append] at hm
      simp [find, hm, hf]

/-- The scan finds the key of a call `t(q K q'` that follows no word character,
unless an earlier match ends at the quote that opens the key. -/
theorem scan_call_found (q q' c : Sym) (K post : Str) (hq : isQuote q = true)
    (hq' : isQuote q' = true) (hc : notQuote c = true) (hK : ∀ x ∈ K, notQuote x = true)
    (fuel : Nat) :
    ∀ (A : Str) (prev : Option Sym), A.length < fuel →
      isWordAt (lastOr prev A) = false →
      (∀ m ∈ findAllLoop tFuncRegexScan fuel prev
          (A ++ ('t' : Sym) :: '(' :: q :: c :: (K ++ q' :: post)),
        m.thread.rest ≠ c :: (K ++ q' :: post)) →
      ∃ m ∈ findAllLoop tFuncRegexScan fuel prev
          (A ++ ('t' : Sym) :: '(' :: q :: c :: (K ++ q' :: post)),
        m.sub 2 = c :: K := by
  induction fuel with
  | zero => intro A prev h; omega
  | succ fuel ih =>
    intro A prev hfuel hb hno
    obtain ⟨t0, ht0, -, -⟩ := matchHere_scan_call (lastOr prev A) q q' c K post hb hq hq' hc hK
    obtain ⟨m, A1, A2, hf, eA, -, hh⟩ := find_at _ _ A prev _ ht0
    obtain ⟨-, -, hmem⟩ := matchHere_split _ _ _ _ hh
    simp only at hmem
    have hne : m.text.isEmpty = false := by
      have hseen := scan_thread_seen _ _ _ hmem
      unfold matchHere at hh
      simp only [Option.map_eq_some', Match.mk.injEq, true_and] at hh
      obtain ⟨t, -, hts, rfl⟩ := hh
      rw [← hts]
      cases hs : m.thread.seen with
      | nil => exact absurd hs hseen
      | cons y ys => rfl
    have hloop := findAllLoop_cons tFuncRegexScan fuel prev _ m hf hne
    rw [hloop] at hno ⊢
    obtain ⟨w, qa, Ka, qa', e, pw, hqa, -, pKa, hqa', hcap⟩ := scan_thread _ _ _ hmem
    have ptq : ∀ y ∈ ([('t' : Sym), '('] : Str), notQuote y = true := by
      intro y hy
      simp only [List.mem_cons, List.mem_singleton, List.not_mem_nil, or_false] at hy
      rcases hy with rfl | rfl <;> decide
    have pcK : ∀ y ∈ c :: K, notQuote y = true := by
      intro y hy
      rcases List.mem_cons.1 hy with rfl | hy
      · exact hc
      · exact hK y hy
    rcases quote_split A2 with hA2 | ⟨u, qb, A3, eA2, hu, hqb⟩
    · have e' : (A2 ++ [('t' : Sym), '(']) ++ q :: ((c :: K) ++ q' :: post) =
          w ++ qa :: (Ka ++ qa' :: m.thread.rest) := by
        rw [← e]; simp
      have pxs : ∀ y ∈ A2 ++ [('t' : Sym), '('], notQuote y = true := by
        intro y hy
        rcases List.mem_append.1 hy with hy | hy
        · exact hA2 y hy
        · exact ptq y hy
      obtain ⟨-, -, e2⟩ := first_quote_unique _ _ _ _ _ _ pxs pw hq hqa e'
      obtain ⟨e3, -, -⟩ := first_quote_unique _ _ _ _ _ _ pcK pKa hq' hqa' e2
      exact ⟨m, List.mem_cons_self _ _, by simp [Match.sub, hcap, e3]⟩
    · subst eA2
      have e' : u ++ qb :: (A3 ++ ('t' : Sym) :: '(' :: q :: c :: (K ++ q' :: post)) =
          w ++ qa :: (Ka ++ qa' :: m.thread.rest) := by
        rw [← e]; simp
      obtain ⟨-, -, e2⟩ := first_quote_unique _ _ _ _ _ _ hu pw hqb hqa e'
      rcases quote_split A3 with hA3 | ⟨u', qc, A4, eA3, hu', hqc⟩
      · exfalso
        have e3 : (A3 ++ [('t' : Sym), '(']) ++ q :: ((c :: K) ++ q' :: post) =
            Ka ++ qa' :: m.thread.rest := by
          rw [← e2]; simp
        have pxs : ∀ y ∈ A3 ++ [('t' : Sym), '('], notQuote y = true := by
          intro y hy
          rcases List.mem_append.1 hy with hy | hy
          · exact hA3 y hy
          · exact ptq y hy
        obtain ⟨-, -, e4⟩ := first_quote_unique _ _ _ _ _ _ pxs pKa hq hqa' e3
        exact hno m (List.mem_cons_self _ _) (by rw [← e4]; simp)
      · subst eA3
        have e3 : u' ++ qc :: (A4 ++ ('t' : Sym) :: '(' :: q :: c :: (K ++ q' :: post)) =
            Ka ++ qa' :: m.thread.rest := by
          rw [← e2]; simp
        obtain ⟨-, -, e4⟩ := first_quote_unique _ _ _ _ _ _ hu' pKa hqc hqa' e3
        rw [← e4] at hno ⊢
        have hlen : A4.length < fuel := by
          rw [eA] at hfuel
          simp only [List.length_append, List.length_cons] at hfuel
          omega
        have hb' : isWordAt (lastOr m.thread.prev A4) = false := by
          cases hA4 : A4 with
          | nil =>
            obtain ⟨cq, hcq, hp⟩ := scan_thread_prev _ _ _ hmem
            simp only [lastOr, hp]
            exact isWordAt_quote cq hcq
          | cons y ys =>
            have hA : A = (A1 ++ u ++ qb :: u' ++ [qc]) ++ (y :: ys) := by
              rw [eA, hA4]; simp
            rw [hA, lastOr_append_list] at hb
            rw [lastOr_ne_nil _ m.thread.prev _ (by simp)] at hb
            exact hb
        obtain ⟨m', hm', hs⟩ := ih A4 m.thread.prev hlen hb'
          (fun m' hm' => hno m' (List.mem_cons_of_mem _ hm'))
        exact ⟨m', List.mem_cons_of_mem _ hm', hs⟩

/-! ## The claim on key discovery -/

/-- C4 as the code has it.  A scanned file contains the call texts `t('K1')`
and `$t("K2", {count: 2})`, the keys `K1` and `K2` not empty and without quotes.
When `t('K1')` does not directly follow a letter, a digit or an underscore, and
no match of the scanning pattern ends at the quote that opens `K1` or at the
quote that opens `K2`, then `K1` and `K2` are keys of the mapping that
`scanForI18nKeys` returns; the parameter object plays no part. -/
theorem scanForI18nKeys_discovers (files : List Str) (existingKeys : GoMap)
    (text pre1 post1 pre2 post2 K1 K2 : Str)
    (h1 : K1 ≠ []) (h1q : ∀ x ∈ K1, x ≠ '\'' ∧ x ≠ '"')
    (h2 : K2 ≠ []) (h2q : ∀ x ∈ K2, x ≠ '\'' ∧ x ≠ '"')
    (hfile : text ∈ files)
    (e1 : text = pre1 ++ str "t('" ++ K1 ++ str "')" ++ post1)
    (e2 : text = pre2 ++ str "$t(\"" ++ K2 ++ str "\", \x7bcount: 2\x7d)" ++ post2)
    (hb : ∀ c, pre1.getLast? = some c → isWordChar c = false)
    (ho1 : ∀ m ∈ FindAllStringSubmatch tFuncRegexScan text,
      m.thread.rest ≠ K1 ++ str "')" ++ post1)
    (ho2 : ∀ m ∈ FindAllStringSubmatch tFuncRegexScan text,
      m.thread.rest ≠ K2 ++ str "\", \x7bcount: 2\x7d)" ++ post2) :
    K1 ∈ mapKeys (scanForI18nKeys files existingKeys) ∧
    K2 ∈ mapKeys (scanForI18nKeys files existingKeys) := by
  have hb' : isWordAt (lastOr none pre1) = false := by
    rw [lastOr_eq]
    cases hl : pre1.getLast? with
    | none => rfl
    | some c => exact hb c hl
  obtain ⟨c1, k1, rfl⟩ := List.exists_cons_of_ne_nil h1
  obtain ⟨c2, k2, rfl⟩ := List.exists_cons_of_ne_nil h2
  have p1 := notQuote_of_ne _ h1q
  have p2 := notQuote_of_ne _ h2q
  have s0 : str "t('" = ([('t' : Sym), '(', '\''] : Str) := rfl
  have s1 : str "')" = ([('\'' : Sym), ')'] : Str) := rfl
  have s2 : str "$t(\"" = ([('$' : Sym), 't', '(', '"'] : Str) := rfl
  have f1 : text = pre1 ++ ('t' : Sym) :: '(' :: '\'' :: c1 :: (k1 ++ ('\'' : Sym) :: ')' :: post1) := by
    rw [e1, s0, s1]; simp
  have f2 : text = (pre2 ++ [('$' : Sym)]) ++ ('t' : Sym) :: '(' :: '"' :: c2 ::
      (k2 ++ ('"' : Sym) :: ((str ", \x7bcount: 2\x7d)") ++ post2)) := by
    have s3 : str "\", \x7bcount: 2\x7d)" = ('"' : Sym) :: str ", \x7bcount: 2\x7d)" := rfl
    rw [e2, s2, s3]; simp
  have g1 : ∀ m ∈ FindAllStringSubmatch tFuncRegexScan text,
      m.thread.rest ≠ c1 :: (k1 ++ ('\'' : Sym) :: ')' :: post1) := by
    intro m hm e
    apply ho1 m hm
    rw [e, s1]; simp
  have g2 : ∀ m ∈ FindAllStringSubmatch tFuncRegexScan text,
      m.thread.rest ≠ c2 :: (k2 ++ ('"' : Sym) :: ((str ", \x7bcount: 2\x7d)") ++ post2)) := by
    intro m hm e
    apply ho2 m hm
    have s3 : str "\", \x7bcount: 2\x7d)" = ('"' : Sym) :: str ", \x7bcount: 2\x7d)" := rfl
    rw [e, s3]; simp
  constructor
  · unfold FindAllStringSubmatch at g1
    rw [f1] at g1
    obtain ⟨m, hm, hs⟩ := scan_call_found '\'' '\'' c1 k1 ((')' : Sym) :: post1) (by decide) (by decide)
      (p1 c1 (List.mem_cons_self _ _)) (fun x hx => p1 x (List.mem_cons_of_mem _ hx))
      _ pre1 none (by simp; omega) hb' g1
    rw [← hs]
    apply mem_mapKeys_scan files existingKeys text m hfile
    unfold FindAllStringSubmatch
    rw [f1]
    exact hm
  · unfold FindAllStringSubmatch at g2
    rw [f2] at g2
    obtain ⟨m, hm, hs⟩ := scan_call_found '"' '"' c2 k2 ((str ", \x7bcount: 2\x7d)") ++ post2)
      (by decide) (by decide)
      (p2 c2 (List.mem_cons_self _ _)) (fun x hx => p2 x (List.mem_cons_of_mem _ hx))
      _ (pre2 ++ [('$' : Sym)]) none (by simp) (by rw [lastOr_append]; decide) g2
    rw [← hs]
    apply mem_mapKeys_scan files existingKeys text m hfile
    unfold FindAllStringSubmatch
    rw [f2]
    exact hm

/-- The examples of C4: the two calls standing in a template; and the two calls
in the other order, with string literals before and between them. -/
theorem scanForI18nKeys_discovers_witness :
    (scanForI18nKeys [str "<p>\x7b\x7b t('greeting') \x7d\x7d, \x7b\x7b $t(\"farewell\", \x7bcount: 2\x7d) \x7d\x7d</p>"] [] =
        [(str "greeting", []), (str "farewell", [])] ∧
      (str "greeting" ∈ mapKeys (scanForI18nKeys
          [str "<p>\x7b\x7b t('greeting') \x7d\x7d, \x7b\x7b $t(\"farewell\", \x7bcount: 2\x7d) \x7d\x7d</p>"] []) ∧
        str "farewell" ∈ mapKeys (scanForI18nKeys
          [str "<p>\x7b\x7b t('greeting') \x7d\x7d, \x7b\x7b $t(\"farewell\", \x7bcount: 2\x7d) \x7d\x7d</p>"] []))) ∧
    (scanForI18nKeys [str "x = 'a' + $t(\"farewell\", \x7bcount: 2\x7d) + \"b\" + t('greeting')"] [] =
        [(str "farewell", []), (str "greeting", [])] ∧
      (str "greeting" ∈ mapKeys (scanForI18nKeys
          [str "x = 'a' + $t(\"farewell\", \x7bcount: 2\x7d) + \"b\" + t('greeting')"] []) ∧
        str "farewell" ∈ mapKeys (scanForI18nKeys
          [str "x = 'a' + $t(\"farewell\", \x7bcount: 2\x7d) + \"b\" + t('greeting')"] []))) :=
  ⟨⟨by decide,
      scanForI18nKeys_discovers
        [str "<p>\x7b\x7b t('greeting') \x7d\x7d, \x7b\x7b $t(\"farewell\", \x7bcount: 2\x7d) \x7d\x7d</p>"] []
        (str "<p>\x7b\x7b t('greeting') \x7d\x7d, \x7b\x7b $t(\"farewell\", \x7bcount: 2\x7d) \x7d\x7d</p>")
        (str "<p>\x7b\x7b ") (str " \x7d\x7d, \x7b\x7b $t(\"farewell\", \x7bcount: 2\x7d) \x7d\x7d</p>")
        (str "<p>\x7b\x7b t('greeting') \x7d\x7d, \x7b\x7b ") (str " \x7d\x7d</p>")
        (str "greeting") (str "farewell")
        (by decide) (by decide) (by decide) (by decide) (by decide) (by decide) (by decide)
        (by decide) (by decide) (by decide)⟩,
    by decide,
    scanForI18nKeys_discovers
      [str "x = 'a' + $t(\"farewell\", \x7bcount: 2\x7d) + \"b\" + t('greeting')"] []
      (str "x = 'a' + $t(\"farewell\", \x7bcount: 2\x7d) + \"b\" + t('greeting')")
      (str "x = 'a' + $t(\"farewell\", \x7bcount: 2\x7d) + \"b\" + ") []
      (str "x = 'a' + ") (str " + \"b\" + t('greeting')")
      (str "greeting") (str "farewell")
      (by decide) (by decide) (by decide) (by decide) (by decide) (by decide) (by decide)
      (by decide) (by decide) (by decide)⟩

/-- C4 fails as stated.  Both texts contain `t('greeting')` and
`$t("farewell", {count: 2})`, and the scan does not find `greeting`: in the first
the call text follows a letter (`format('greeting')`), in the second an earlier
match, begun in the string `'t('`, runs up to the quote that opens the key. -/
theorem scanForI18nKeys_discovers_counterexample :
    ((str "t('greeting')") <:+: (str "format('greeting') $t(\"farewell\", \x7bcount: 2\x7d)") ∧
      (str "$t(\"farewell\", \x7bcount: 2\x7d)") <:+:
        (str "format('greeting') $t(\"farewell\", \x7bcount: 2\x7d)") ∧
      (str "greeting") ∉ mapKeys (scanForI18nKeys
        [(str "format('greeting') $t(\"farewell\", \x7bcount: 2\x7d)")] [])) ∧
    ((str "t('greeting')") <:+:
        (str "x = 't(' + t('greeting') + $t(\"farewell\", \x7bcount: 2\x7d)") ∧
      (str "$t(\"farewell\", \x7bcount: 2\x7d)") <:+:
        (str "x = 't(' + t('greeting') + $t(\"farewell\", \x7bcount: 2\x7d)") ∧
      (str "greeting") ∉ mapKeys (scanForI18nKeys
        [(str "x = 't(' + t('greeting') + $t(\"farewell\", \x7bcount: 2\x7d)")] [])) :=
  ⟨⟨⟨(str "forma"), (str " $t(\"farewell\", \x7bcount: 2\x7d)"), by decide⟩,
      ⟨(str "format('greeting') "), [], by decide⟩, by decide⟩,
    ⟨⟨(str "x = 't(' + "), (str " + $t(\"farewell\", \x7bcount: 2\x7d)"), by decide⟩,
      ⟨(str "x = 't(' + t('greeting') + "), [], by decide⟩, by decide⟩⟩


/-! ## No pattern of the program matches the empty string -/

theorem run_minLen (re : Regex) :
    ∀ (t t' : Thread), t' ∈ run re t → t'.rest.length + re.minLen ≤ t.rest.length := by
  induction re with
  | char p =>
    intro t t' h
    obtain ⟨c, -, e, -, -⟩ := mem_run_char _ _ _ h
    simp [Regex.minLen, e]
  | wordBoundary =>
    intro t t' h
    rw [mem_run_wordBoundary _ _ h]
    simp [Regex.minLen]
  | seq a b iha ihb =>
    intro t t' h
    obtain ⟨t1, h1, h2⟩ := (mem_run_seq _ _ _ _).1 h
    have := iha _ _ h1
    have := ihb _ _ h2
    simp only [Regex.minLen]
    omega
  | alt a b iha ihb =>
    intro t t' h
    simp only [run, List.mem_append] at h
    simp only [Regex.minLen]
    rcases h with h | h
    · have := iha _ _ h
      omega
    · have := ihb _ _ h
      omega
  | quest a _ =>
    intro t t' h
    obtain ⟨w, -, e⟩ := run_sound _ _ _ h
    simp [Regex.minLen, e]
  | star p =>
    intro t t' h
    obtain ⟨w, -, e⟩ := run_sound _ _ _ h
    simp [Regex.minLen, e]
  | lazyStar p =>
    intro t t' h
    obtain ⟨w, -, e⟩ := run_sound _ _ _ h
    simp [Regex.minLen, e]
  | capture n a iha =>
    intro t t' h
    simp only [run, List.mem_map] at h
    obtain ⟨t0, h0, rfl⟩ := h
    exact iha { t with seen := [] } t0 h0

/-- A match of any of the three patterns has at least five characters, so that
the rule for empty matches never comes into play. -/
theorem patterns_consume :
    tFuncRegexScan.minLen = 5 ∧ tFuncRegex.minLen = 6 ∧ attrRegex.minLen = 13 := by
  decide

/-- A pattern that consumes at least one character has no empty match. -/
theorem find_text_ne_nil (re : Regex) (hre : 0 < re.minLen) (rest : Str) :
    ∀ (prev : Option Sym) (m : Match), find re prev rest = some m → m.text ≠ [] := by
  have key : ∀ (prev : Option Sym) (rest : Str) (m : Match),
      matchHere re prev rest = some m → m.text ≠ [] := by
    intro prev rest m h
    obtain ⟨-, e, hmem⟩ := matchHere_split _ _ _ _ h
    have := run_minLen re _ _ hmem
    intro hnil
    rw [hnil] at e
    simp only [List.nil_append] at e
    simp only [e] at this
    omega
  induction rest with
  | nil =>
    intro prev m h
    simp only [find] at h
    exact key _ _ _ h
  | cons c cs ih =>
    intro prev m h
    simp only [find] at h
    split at h
    · rename_i m' hm'
      cases h
      exact key _ _ _ hm'
    · simp only [Option.map_eq_some'] at h
      obtain ⟨m', hm', rfl⟩ := h
      exact ih _ m' hm'


/-! ## Matching a match again -/

theorem flatMap_filterMap_eq {α β γ : Type} (l : List α) (f : α → Option β) (g : β → List γ) :
    (l.filterMap f).flatMap g =
      l.flatMap fun a => match f a with
        | some b => g b
        | none => [] := by
  induction l with
  | nil => rfl
  | cons a l ih =>
    cases h : f a with
    | none => simp [List.filterMap_cons, h, ih]
    | some b => simp [List.filterMap_cons, h, ih]

theorem filterMap_congr_mem {α β : Type} (l : List α) (f g : α → Option β)
    (h : ∀ a ∈ l, f a = g a) : l.filterMap f = l.filterMap g := by
  induction l with
  | nil => rfl
  | cons a l ih =>
    have h1 := h a (List.mem_cons_self _ _)
    have h2 := ih fun b hb => h b (List.mem_cons_of_mem _ hb)
    simp only [List.filterMap_cons, h1, h2]

theorem cut_append (r y : Str) (p : Option Sym) (seen : Str) (caps : List (Nat × Str)) :
    cut r ⟨p, seen, y ++ r, caps⟩ = some ⟨p, seen, y, caps⟩ := by
  simp [cut]

theorem cut_cons_append (r : Str) (a : Sym) (y : Str) (p : Option Sym) (seen : Str)
    (caps : List (Nat × Str)) :
    cut r ⟨p, seen, a :: (y ++ r), caps⟩ = some ⟨p, seen, a :: y, caps⟩ :=
  cut_append r (a :: y) p seen caps

theorem cut_self (r : Str) (p : Option Sym) (seen : Str) (caps : List (Nat × Str)) :
    cut r ⟨p, seen, r, caps⟩ = some ⟨p, seen, [], caps⟩ := by
  simpa using cut_append r [] p seen caps

theorem cut_short (r : Str) (t : Thread) (h : t.rest.length < r.length) : cut r t = none := by
  simp [cut, h]

theorem starRun_cut (p : Sym → Bool) (caps : List (Nat × Str)) (r : Str) (x : Str) :
    ∀ (prev : Option Sym) (seen : Str),
      starRun p caps prev seen x = (starRun p caps prev seen (x ++ r)).filterMap (cut r) := by
  induction x with
  | nil =>
    intro prev seen
    have h : ∀ (r' : Str) (prev : Option Sym) (seen : Str), r'.length < r.length →
        (starRun p caps prev seen r').filterMap (cut r) = [] := by
      intro r' prev seen hlt
      rw [List.filterMap_eq_nil_iff]
      intro t ht
      obtain ⟨w, -, e, -⟩ := starRun_sound _ _ _ _ _ _ ht
      apply cut_short
      have := congrArg List.length e
      simp at this
      omega
    cases r with
    | nil => simp [starRun, cut]
    | cons c cs =>
      simp only [List.nil_append, starRun, List.filterMap_append]
      have e1 := cut_self (c :: cs) prev seen caps
      split_ifs with hp
      · rw [h cs _ _ (by simp)]
        simp [e1]
      · simp [e1]
  | cons a x ih =>
    intro prev seen
    have e1 := cut_cons_append r a x prev seen caps
    have e2 := ih (some a) (seen ++ [a])
    simp only [List.cons_append, starRun, List.filterMap_append, List.append_eq]
    split_ifs with hp
    · rw [← e2]
      simp [e1]
    · simp [e1]

theorem lazyRun_cut (p : Sym → Bool) (caps : List (Nat × Str)) (r : Str) (x : Str) :
    ∀ (prev : Option Sym) (seen : Str),
      lazyRun p caps prev seen x = (lazyRun p caps prev seen (x ++ r)).filterMap (cut r) := by
  induction x with
  | nil =>
    intro prev seen
    have h : ∀ (r' : Str) (prev : Option Sym) (seen : Str), r'.length < r.length →
        (lazyRun p caps prev seen r').filterMap (cut r) = [] := by
      intro r' prev seen hlt
      rw [List.filterMap_eq_nil_iff]
      intro t ht
      obtain ⟨w, -, e, -⟩ := lazyRun_sound _ _ _ _ _ _ ht
      apply cut_short
      have := congrArg List.length e
      simp at this
      omega
    cases r with
    | nil => simp [lazyRun, cut]
    | cons c cs =>
      have e1 := cut_self (c :: cs) prev seen caps
      simp only [List.nil_append, lazyRun, List.filterMap_cons, e1]
      split_ifs with hp
      · rw [h cs _ _ (by simp)]
      · rfl
  | cons a x ih =>
    intro prev seen
    have e1 := cut_cons_append r a x prev seen caps
    have e2 := ih (some a) (seen ++ [a])
    simp only [List.cons_append, lazyRun, List.filterMap_cons, List.append_eq, e1]
    split_ifs with hp
    · rw [← e2]
    · rfl

/-- A thread of a run over `x ++ r` either has `r` still unread or has read
into `r`. -/
theorem run_rest_cases (re : Regex) (p : Option Sym) (seen x r : Str) (caps : List (Nat × Str))
    (t : Thread) (h : t ∈ run re ⟨p, seen, x ++ r, caps⟩) :
    (∃ y, t.rest = y ++ r) ∨ t.rest.length < r.length := by
  obtain ⟨w, -, e⟩ := run_sound _ _ _ h
  simp only at e
  rcases List.append_eq_append_iff.1 e with ⟨a', -, e2⟩ | ⟨c', -, e2⟩
  · cases a' with
    | nil => exact Or.inl ⟨[], by simpa using e2.symm⟩
    | cons b bs =>
      refine Or.inr ?_
      rw [e2]
      simp
      omega
  · exact Or.inl ⟨c', e2⟩

/-- The threads of a pattern without `\b` over a text cut short are the
threads over the whole text that stay within the shorter text. -/
theorem run_cut (re : Regex) (hre : re.noBoundary = true) (r : Str) :
    ∀ (p : Option Sym) (seen x : Str) (caps : List (Nat × Str)),
      run re ⟨p, seen, x, caps⟩ = (run re ⟨p, seen, x ++ r, caps⟩).filterMap (cut r) := by
  induction re with
  | char q =>
    intro p seen x caps
    cases x with
    | nil =>
      cases r with
      | nil => simp [run]
      | cons c cs =>
        simp only [run, List.nil_append]
        split_ifs with hq
        · simp [cut]
        · rfl
    | cons a x =>
      simp only [run, List.cons_append]
      split_ifs with hq
      · simp [cut]
      · rfl
  | wordBoundary => cases hre
  | seq a b iha ihb =>
    intro p seen x caps
    simp only [Regex.noBoundary, Bool.and_eq_true] at hre
    simp only [run]
    rw [iha hre.1 p seen x caps, List.filterMap_flatMap, flatMap_filterMap_eq]
    apply List.flatMap_congr
    intro t ht
    rcases run_rest_cases a p seen x r caps t ht with ⟨y, hy⟩ | hlt
    · have e : t = ⟨t.prev, t.seen, y ++ r, t.caps⟩ := by rw [← hy]
      rw [e, cut_append]
      exact ihb hre.2 _ _ _ _
    · rw [cut_short r t hlt]
      symm
      simp only
      rw [List.filterMap_eq_nil_iff]
      intro t2 ht2
      apply cut_short
      obtain ⟨w, -, e⟩ := run_sound _ _ _ ht2
      have := congrArg List.length e
      simp at this
      omega
  | alt a b iha ihb =>
    intro p seen x caps
    simp only [Regex.noBoundary, Bool.and_eq_true] at hre
    simp only [run, List.filterMap_append]
    rw [← iha hre.1, ← ihb hre.2]
  | quest a iha =>
    intro p seen x caps
    simp only [Regex.noBoundary] at hre
    simp only [run, List.filterMap_append]
    rw [← iha hre]
    simp [cut_append]
  | star q =>
    intro p seen x caps
    exact starRun_cut q caps r x p seen
  | lazyStar q =>
    intro p seen x caps
    exact lazyRun_cut q caps r x p seen
  | capture n a iha =>
    intro p seen x caps
    simp only [Regex.noBoundary] at hre
    simp only [run]
    rw [iha hre p [] x caps, List.filterMap_map, List.map_filterMap]
    apply filterMap_congr_mem
    intro t _
    simp only [Function.comp, cut]
    split_ifs <;> simp


theorem starRun_erasePrev (p : Sym → Bool) (caps : List (Nat × Str)) (prev prev' : Option Sym)
    (seen rest : Str) :
    (starRun p caps prev seen rest).map erasePrev =
      (starRun p caps prev' seen rest).map erasePrev := by
  cases rest with
  | nil => simp [starRun, erasePrev]
  | cons c cs => simp [starRun, erasePrev]

theorem lazyRun_erasePrev (p : Sym → Bool) (caps : List (Nat × Str)) (prev prev' : Option Sym)
    (seen rest : Str) :
    (lazyRun p caps prev seen rest).map erasePrev =
      (lazyRun p caps prev' seen rest).map erasePrev := by
  cases rest with
  | nil => simp [lazyRun, erasePrev]
  | cons c cs => simp [lazyRun, erasePrev]

/-- A pattern without `\b` does not look at the character before the cursor. -/
theorem run_erasePrev (re : Regex) (hre : re.noBoundary = true) :
    ∀ (t t' : Thread), erasePrev t = erasePrev t' →
      (run re t).map erasePrev = (run re t').map erasePrev := by
  induction re with
  | char q =>
    intro t t' h
    simp only [erasePrev, Thread.mk.injEq, true_and] at h
    obtain ⟨h1, h2, h3⟩ := h
    simp only [run, h1, h2, h3]
  | wordBoundary => cases hre
  | seq a b iha ihb =>
    intro t t' h
    simp only [Regex.noBoundary, Bool.and_eq_true] at hre
    have hb : ∀ u, (run b u).map erasePrev = (run b (erasePrev u)).map erasePrev :=
      fun u => ihb hre.2 u (erasePrev u) rfl
    have key : ∀ t0, (run (.seq a b) t0).map erasePrev =
        ((run a t0).map erasePrev).flatMap fun v => (run b v).map erasePrev := by
      intro t0
      simp only [run, List.map_flatMap, List.flatMap_map]
      apply List.flatMap_congr
      intro u _
      exact hb u
    rw [key, key, iha hre.1 t t' h]
  | alt a b iha ihb =>
    intro t t' h
    simp only [Regex.noBoundary, Bool.and_eq_true] at hre
    simp only [run, List.map_append, iha hre.1 t t' h, ihb hre.2 t t' h]
  | quest a iha =>
    intro t t' h
    simp only [Regex.noBoundary] at hre
    simp only [run, List.map_append, iha hre t t' h, List.map_cons, List.map_nil, h]
  | star q =>
    intro t t' h
    simp only [erasePrev, Thread.mk.injEq, true_and] at h
    obtain ⟨h1, h2, h3⟩ := h
    simp only [run, h1, h2, h3]
    exact starRun_erasePrev _ _ _ _ _ _
  | lazyStar q =>
    intro t t' h
    simp only [erasePrev, Thread.mk.injEq, true_and] at h
    obtain ⟨h1, h2, h3⟩ := h
    simp only [run, h1, h2, h3]
    exact lazyRun_erasePrev _ _ _ _ _ _
  | capture n a iha =>
    intro t t' h
    simp only [Regex.noBoundary] at hre
    have h' := h
    simp only [erasePrev, Thread.mk.injEq, true_and] at h'
    obtain ⟨h1, h2, h3⟩ := h'
    have e := iha hre { t with seen := [] } { t' with seen := [] }
      (by simp [erasePrev, h2, h3])
    have key : ∀ (t0 : Thread), (run (.capture n a) t0).map erasePrev =
        ((run a { t0 with seen := [] }).map erasePrev).map fun u =>
          { u with seen := t0.seen ++ u.seen, caps := (n, u.seen) :: u.caps } := by
      intro t0
      simp only [run, List.map_map]
      apply List.map_congr_left
      intro u _
      rfl
    rw [key, key, e, h1]

/-- A match is found where it starts. -/
theorem find_matchHere (re : Regex) (rest : Str) :
    ∀ (prev : Option Sym) (m : Match), find re prev rest = some m →
      ∃ prev' rest', matchHere re prev' rest' = some ⟨[], m.text, m.thread⟩ := by
  induction rest with
  | nil =>
    intro prev m h
    simp only [find] at h
    obtain ⟨hb, -, -⟩ := matchHere_split _ _ _ _ h
    refine ⟨prev, [], ?_⟩
    rw [h, ← hb]
  | cons c cs ih =>
    intro prev m h
    simp only [find] at h
    split at h
    · rename_i m' hm'
      cases h
      obtain ⟨hb, -, -⟩ := matchHere_split _ _ _ _ hm'
      refine ⟨prev, c :: cs, ?_⟩
      rw [hm', ← hb]
    · simp only [Option.map_eq_some'] at h
      obtain ⟨m', hm', rfl⟩ := h
      exact ih _ m' hm'

/-- The text of a match of a pattern without `\b`, matched on its own, gives
the same match with the same groups. -/
theorem find_again (re : Regex) (hre : re.noBoundary = true) (prev : Option Sym) (s : Str)
    (m : Match) (h : find re prev s = some m) :
    ∃ m', FindStringSubmatch re m.text = some m' ∧ ∀ i, m'.sub i = m.sub i := by
  obtain ⟨p, s', hm⟩ := find_matchHere re s prev m h
  obtain ⟨-, hs, -⟩ := matchHere_split _ _ _ _ hm
  simp only at hs
  unfold matchHere at hm
  simp only [Option.map_eq_some', Match.mk.injEq, true_and] at hm
  obtain ⟨t0, ht0, hseen, rfl⟩ := hm
  have hcut := run_cut re hre m.thread.rest p [] m.text []
  rw [← hs] at hcut
  obtain ⟨L, hL⟩ : ∃ L, run re ⟨p, [], s', []⟩ = m.thread :: L := by
    cases hr : run re ⟨p, [], s', []⟩ with
    | nil => rw [hr] at ht0; cases ht0
    | cons a L =>
      rw [hr] at ht0
      simp only [List.head?_cons, Option.some.injEq] at ht0
      exact ⟨L, by rw [ht0]⟩
  rw [hL, List.filterMap_cons] at hcut
  have hc : cut m.thread.rest m.thread = some { m.thread with rest := [] } := by
    simp [cut]
  rw [hc] at hcut
  have he := run_erasePrev re hre ⟨none, [], m.text, []⟩ ⟨p, [], m.text, []⟩ rfl
  rw [hcut] at he
  cases hr : run re ⟨none, [], m.text, []⟩ with
  | nil => rw [hr] at he; cases he
  | cons t1 L1 =>
    rw [hr] at he
    simp only [List.map_cons, List.cons.injEq] at he
    have h1 := he.1
    simp only [erasePrev, Thread.mk.injEq, true_and] at h1
    obtain ⟨e1, -, e3⟩ := h1
    refine ⟨⟨[], t1.seen, t1⟩, ?_, ?_⟩
    · apply find_of_matchHere
      simp [matchHere, hr]
    · intro i
      simp [Match.sub, e1, e3, hseen]

theorem findAllLoop_mem (re : Regex) (fuel : Nat) :
    ∀ (prev : Option Sym) (rest : Str) (m : Match), m ∈ findAllLoop re fuel prev rest →
      ∃ prev' rest', find re prev' rest' = some m := by
  induction fuel with
  | zero => intro prev rest m h; cases h
  | succ fuel ih =>
    intro prev rest m h
    simp only [findAllLoop] at h
    cases hf : find re prev rest with
    | none => rw [hf] at h; cases h
    | some m0 =>
      rw [hf] at h
      simp only at h
      split_ifs at h
      · cases hr : m0.thread.rest with
        | nil =>
          rw [hr] at h
          simp only [List.mem_singleton] at h
          exact ⟨prev, rest, by rw [hf, h]⟩
        | cons c cs =>
          rw [hr] at h
          simp only [List.mem_cons] at h
          rcases h with h | h
          · exact ⟨prev, rest, by rw [hf, h]⟩
          · exact ih _ _ _ h
      · simp only [List.mem_cons] at h
        rcases h with h | h
        · exact ⟨prev, rest, by rw [hf, h]⟩
        · exact ih _ _ _ h

theorem tFuncRegex_noBoundary : tFuncRegex.noBoundary = true := by decide


/-- The closure does not panic on a call that `tFuncRegex` has found. -/
theorem rewriteCall_returns (jsonMap : GoMap) (prev : Option Sym) (s : Str) (m : Match) (st : Bool)
    (h : find tFuncRegex prev s = some m) : ∃ r, rewriteCall jsonMap m.text st = some r := by
  obtain ⟨m', hm', -⟩ := find_again tFuncRegex tFuncRegex_noBoundary prev s m h
  unfold rewriteCall
  rw [hm']
  simp only
  cases mapGet jsonMap (m'.sub 2) with
  | none => exact ⟨_, rfl⟩
  | some v =>
    simp only
    split_ifs <;> exact ⟨_, rfl⟩

theorem replaceAllLoop_returns {σ : Type} (re : Regex) (repl : Str → σ → Option (Str × σ))
    (h : ∀ prev rest m st, find re prev rest = some m → ∃ r, repl m.text st = some r)
    (fuel : Nat) :
    ∀ (prev : Option Sym) (rest : Str) (st : σ),
      ∃ r, replaceAllLoop re repl fuel prev rest st = some r := by
  induction fuel with
  | zero => intro prev rest st; exact ⟨_, rfl⟩
  | succ fuel ih =>
    intro prev rest st
    simp only [replaceAllLoop]
    cases hf : find re prev rest with
    | none => exact ⟨_, rfl⟩
    | some m =>
      obtain ⟨⟨out, st'⟩, hr⟩ := h prev rest m st hf
      simp only [hr]
      split_ifs
      · cases hrest : m.thread.rest with
        | nil => exact ⟨_, rfl⟩
        | cons c cs =>
          obtain ⟨r, hr'⟩ := ih (some c) cs st'
          simp only [hr']
          exact ⟨_, rfl⟩
      · obtain ⟨r, hr'⟩ := ih m.thread.prev m.thread.rest st'
        simp only [hr']
        exact ⟨_, rfl⟩

/-- `processFileContent` returns for every content and every dictionary: the
closure never indexes a `nil` slice. -/
theorem processFileContent_returns (content : Str) (jsonMap : GoMap) :
    ∃ r, processFileContent content jsonMap = some r := by
  unfold processFileContent ReplaceAllStringFunc
  apply replaceAllLoop_returns
  intro prev rest a st _
  apply replaceAllLoop_returns
  intro prev' rest' m st' hm
  exact rewriteCall_returns jsonMap prev' rest' m st' hm

theorem rewriteCall_quoted (jsonMap : GoMap) (prev : Option Sym) (s : Str) (m : Match)
    (hm : find tFuncRegex prev s = some m) (h : quotedParam m = true) :
    rewriteCall jsonMap m.text false = some (m.text, false) := by
  obtain ⟨m', hm', hsub⟩ := find_again tFuncRegex tFuncRegex_noBoundary prev s m hm
  unfold rewriteCall
  rw [hm']
  simp only [quotedParam, Bool.or_eq_true, ← hsub 4] at h
  simp only
  cases mapGet jsonMap (m'.sub 2) with
  | none => rfl
  | some v =>
    simp only
    have hne : m'.sub 4 ≠ [] := by
      intro e
      rw [e] at h
      rcases h with h | h <;> cases h
    rw [if_neg hne]
    rcases h with h | h <;> simp [h]

/-! ## The claim on the guard -/

/-- C8: the guard on an existing parameter.  When every translation call inside
a recognized attribute of the content has a trailing parameter that starts with
a single or a double quote, the content is returned unchanged and `modified` is
false, whatever the dictionary holds. -/
theorem processFileContent_quoted_param (content : Str) (jsonMap : GoMap)
    (h : ∀ call ∈ attrCalls content, quotedParam call = true) :
    processFileContent content jsonMap = some (content, false) := by
  apply ReplaceAllStringFunc_id
  intro a ha
  apply ReplaceAllStringFunc_id
  intro m hm
  obtain ⟨prev, s, hf⟩ := findAllLoop_mem _ _ _ _ _ hm
  apply rewriteCall_quoted jsonMap prev s m hf
  apply h
  simp only [attrCalls, List.mem_flatMap]
  exact ⟨a, ha, hm⟩

/-- The example of C8: the call already has the parameter `"already set"`. -/
theorem processFileContent_quoted_param_witness :
    (attrCalls (str ":placeholder=\"$t('hint', \"already set\")\"")).map
        (fun call => (call.text, call.sub 4)) =
      [((str "$t('hint', \"already set\")"), (str "\"already set\""))] ∧
    processFileContent (str ":placeholder=\"$t('hint', \"already set\")\"")
        [((str "hint"), (str "Enter name"))] =
      some ((str ":placeholder=\"$t('hint', \"already set\")\""), false) :=
  ⟨by decide,
    processFileContent_quoted_param (str ":placeholder=\"$t('hint', \"already set\")\"")
      [((str "hint"), (str "Enter name"))] (by decide)⟩


/-! ## The calls that the closure rewrites -/

/-- The closure on a call that `tFuncRegex` has found, the key being in the
dictionary and the parameter being neither empty nor a string literal. -/
theorem rewriteCall_unquoted (jsonMap : GoMap) (prev : Option Sym) (s : Str) (m : Match)
    (v : Str) (st : Bool) (hm : find tFuncRegex prev s = some m)
    (hv : mapGet jsonMap (m.sub 2) = some v) (hP : m.sub 4 ≠ []) (hq : quotedParam m = false) :
    rewriteCall jsonMap m.text st =
      some (m.sub 1 ++ str "('" ++ m.sub 2 ++ str "', " ++ m.sub 4 ++ str ", "
        ++ formattedJsonValue v ++ str ")", true) := by
  obtain ⟨m', hm', hsub⟩ := find_again tFuncRegex tFuncRegex_noBoundary prev s m hm
  unfold rewriteCall
  rw [hm']
  simp only [hsub, hv, if_neg hP]
  simp only [quotedParam, Bool.or_eq_false_iff] at hq
  simp only [hq.1, hq.2, Bool.not_false, Bool.and_self, if_true]
  rfl

/-! ## The new content, call by call -/

/-- The closure returns the same text whatever `modified` is, and sets
`modified` or leaves it. -/
theorem rewriteCall_state (jsonMap : GoMap) (s : Str) (st : Bool) :
    rewriteCall jsonMap s st =
      (rewriteCall jsonMap s false).map fun r => (r.1, st || r.2) := by
  unfold rewriteCall
  cases FindStringSubmatch tFuncRegex s with
  | none => rfl
  | some m =>
    simp only
    cases mapGet jsonMap (m.sub 2) with
    | none => simp
    | some v =>
      simp only
      split_ifs <;> simp

theorem rewriteCall_closureText (jsonMap : GoMap) (prev : Option Sym) (s : Str) (m : Match)
    (st : Bool) (h : find tFuncRegex prev s = some m) :
    rewriteCall jsonMap m.text st =
      some (closureText jsonMap m, st || closureChanged jsonMap m) := by
  obtain ⟨r, hr⟩ := rewriteCall_returns jsonMap prev s m false h
  rw [rewriteCall_state, hr]
  simp [closureText, closureChanged, hr]

/-- The result of the loop, match by match: the text between the matches is
kept, the text of a match is replaced, and the state records a change. -/
theorem replaceAllLoop_splice (re : Regex) (hre : 0 < re.minLen)
    (repl : Str → Bool → Option (Str × Bool)) (f : Match → Str) (chg : Match → Bool)
    (fuel : Nat) :
    ∀ (prev : Option Sym) (rest : Str) (st : Bool),
      (∀ m ∈ findAllLoop re fuel prev rest, ∀ st, repl m.text st = some (f m, st || chg m)) →
      replaceAllLoop re repl fuel prev rest st =
        some (spliceMatches f (findAllLoop re fuel prev rest) rest,
          st || (findAllLoop re fuel prev rest).any chg) := by
  induction fuel with
  | zero => intro prev rest st _; simp [replaceAllLoop, findAllLoop, spliceMatches]
  | succ fuel ih =>
    intro prev rest st h
    cases hf : find re prev rest with
    | none => simp [replaceAllLoop, findAllLoop, spliceMatches, hf]
    | some m =>
      have hne : m.text.isEmpty = false := by
        have := find_text_ne_nil re hre rest prev m hf
        cases ht : m.text with
        | nil => exact absurd ht this
        | cons a as => rfl
      rw [findAllLoop_cons re fuel prev rest m hf hne] at h ⊢
      have h0 := h m (List.mem_cons_self _ _) st
      have ht := ih m.thread.prev m.thread.rest (st || chg m)
        (fun m' hm' => h m' (List.mem_cons_of_mem _ hm'))
      simp only [replaceAllLoop, hf, h0, hne, ht, Option.map_some', spliceMatches, List.any_cons,
        Bool.or_assoc, Bool.false_eq_true, if_false]

theorem any_flatMap_eq {α β : Type} (l : List α) (g : α → List β) (p : β → Bool) :
    (l.flatMap g).any p = l.any fun a => (g a).any p := by
  induction l with
  | nil => rfl
  | cons a l ih => simp [List.flatMap_cons, List.any_append, ih]

/-- `processFileContent`, call by call: the new content is the content with
the text of every translation call inside a recognized attribute replaced by
what the closure returns for it, and `modified` tells whether the closure has
set it for one of the calls. -/
theorem processFileContent_eq (content : Str) (jsonMap : GoMap) :
    processFileContent content jsonMap =
      some (replaceCalls (closureText jsonMap) content,
        (attrCalls content).any (closureChanged jsonMap)) := by
  have inner : ∀ (s : Str) (st : Bool),
      ReplaceAllStringFunc tFuncRegex s (rewriteCall jsonMap) st =
        some (spliceMatches (closureText jsonMap) (FindAllStringSubmatch tFuncRegex s) s,
          st || (FindAllStringSubmatch tFuncRegex s).any (closureChanged jsonMap)) := by
    intro s st
    apply replaceAllLoop_splice tFuncRegex (by decide)
    intro m hm st'
    obtain ⟨prev, s', hf⟩ := findAllLoop_mem _ _ _ _ _ hm
    exact rewriteCall_closureText jsonMap prev s' m st' hf
  have outer := replaceAllLoop_splice attrRegex (by decide)
    (fun attrMatch modified =>
      ReplaceAllStringFunc tFuncRegex attrMatch (rewriteCall jsonMap) modified)
    (fun a => spliceMatches (closureText jsonMap) (FindAllStringSubmatch tFuncRegex a.text) a.text)
    (fun a => (FindAllStringSubmatch tFuncRegex a.text).any (closureChanged jsonMap))
    (content.length + 1) none content false (fun a _ st => inner a.text st)
  have e : processFileContent content jsonMap =
      replaceAllLoop attrRegex
        (fun attrMatch modified =>
          ReplaceAllStringFunc tFuncRegex attrMatch (rewriteCall jsonMap) modified)
        (content.length + 1) none content false := rfl
  rw [e, outer]
  simp only [replaceCalls, attrCalls, FindAllStringSubmatch, any_flatMap_eq, Bool.false_or]

/-- Putting the matches together again with their own text gives the text. -/
theorem spliceMatches_text (re : Regex) (hre : 0 < re.minLen) (s : Str) :
    spliceMatches (fun m => m.text) (FindAllStringSubmatch re s) s = s := by
  have h1 := replaceAllLoop_splice re hre (fun t st => some (t, st)) (fun m => m.text)
    (fun _ => false) (s.length + 1) none s false (fun m _ st => by simp)
  have h2 := replaceAllLoop_id re (fun t (st : Bool) => some (t, st)) false (s.length + 1) none s
    (fun m _ => rfl)
  rw [h2] at h1
  simp only [Option.some.injEq, Prod.mk.injEq] at h1
  exact h1.1.symm

/-- Replacing every call by its own text leaves the content as it is. -/
theorem replaceCalls_text (content : Str) : replaceCalls (fun m => m.text) content = content := by
  unfold replaceCalls
  have : (fun a : Match => spliceMatches (fun m => m.text)
      (FindAllStringSubmatch tFuncRegex a.text) a.text) = fun a => a.text := by
    funext a
    exact spliceMatches_text tFuncRegex (by decide) a.text
  rw [this]
  exact spliceMatches_text attrRegex (by decide) content

/-! ## The claim on an existing parameter that is no literal -/

/-- C6 as the code has it.  For every content and every translation call inside
a recognized attribute of it (a match of `tFuncRegex` in a match of `attrRegex`)
whose key `k` is in the dictionary and whose trailing parameter `P` is not empty
and starts with neither a single nor a double quote, the closure of
`processFileContent` replaces the call by `f('k', P, V)`, `f` being the name of
the function in the call and `V` the formatted value: the parameter stays right
after the key and the value is appended after it.  The content that
`processFileContent` returns is the content with every call replaced by what the
closure returns for it, this call by `f('k', P, V)`, and `modified` is set. -/
theorem processFileContent_value_after_param (content : Str) (jsonMap : GoMap) (call : Match)
    (v : Str) (hcall : call ∈ attrCalls content)
    (hv : mapGet jsonMap (call.sub 2) = some v)
    (hP : call.sub 4 ≠ []) (hq : quotedParam call = false) :
    (∀ st, rewriteCall jsonMap call.text st =
      some (call.sub 1 ++ str "('" ++ call.sub 2 ++ str "', " ++ call.sub 4 ++ str ", "
        ++ formattedJsonValue v ++ str ")", true)) ∧
    closureText jsonMap call =
      call.sub 1 ++ str "('" ++ call.sub 2 ++ str "', " ++ call.sub 4 ++ str ", "
        ++ formattedJsonValue v ++ str ")" ∧
    processFileContent content jsonMap =
      some (replaceCalls (closureText jsonMap) content, true) := by
  have h1 : ∀ st, rewriteCall jsonMap call.text st =
      some (call.sub 1 ++ str "('" ++ call.sub 2 ++ str "', " ++ call.sub 4 ++ str ", "
        ++ formattedJsonValue v ++ str ")", true) := by
    intro st
    have hcall' := hcall
    simp only [attrCalls, List.mem_flatMap] at hcall'
    obtain ⟨a, -, hm⟩ := hcall'
    obtain ⟨prev, s, hf⟩ := findAllLoop_mem _ _ _ _ _ hm
    exact rewriteCall_unquoted jsonMap prev s call v st hf hv hP hq
  refine ⟨h1, by simp [closureText, h1 false], ?_⟩
  rw [processFileContent_eq]
  have : (attrCalls content).any (closureChanged jsonMap) = true := by
    rw [List.any_eq_true]
    exact ⟨call, hcall, by simp [closureChanged, h1 false]⟩
  rw [this]

/-- The example of C6, `:label="$t('k', {n: 1})"` with the value `V`; and a call
whose key holds a closing parenthesis and whose parameter ends at the first
closing parenthesis. -/
theorem processFileContent_value_after_param_witness :
    ((attrCalls (str ":label=\"$t('k', \x7bn: 1\x7d)\"")).map
        (fun call => (call.text, call.sub 1, call.sub 2, call.sub 4)) =
      [(str "$t('k', \x7bn: 1\x7d)", str "$t", str "k", str "\x7bn: 1\x7d")] ∧
    replaceCalls (closureText [(str "k", str "V")]) (str ":label=\"$t('k', \x7bn: 1\x7d)\"") =
      str ":label=\"$t('k', \x7bn: 1\x7d, 'V')\"" ∧
    ((∀ st, rewriteCall [(str "k", str "V")] (str "$t('k', \x7bn: 1\x7d)") st =
        some (str "$t('k', \x7bn: 1\x7d, 'V')", true)) ∧
      closureText [(str "k", str "V")]
          ((attrCalls (str ":label=\"$t('k', \x7bn: 1\x7d)\"")).head
            (List.ne_nil_of_length_pos (by decide))) =
        str "$t('k', \x7bn: 1\x7d, 'V')" ∧
      processFileContent (str ":label=\"$t('k', \x7bn: 1\x7d)\"") [(str "k", str "V")] =
        some (replaceCalls (closureText [(str "k", str "V")])
          (str ":label=\"$t('k', \x7bn: 1\x7d)\""), true))) ∧
    ((attrCalls (str ":label=\"$t('a)b', fn(1))\"")).map
        (fun call => (call.text, call.sub 1, call.sub 2, call.sub 4)) =
      [(str "$t('a)b', fn(1)", str "$t", str "a)b", str "fn(1")] ∧
    replaceCalls (closureText [(str "a)b", str "V")]) (str ":label=\"$t('a)b', fn(1))\"") =
      str ":label=\"$t('a)b', fn(1, 'V'))\"" ∧
    ((∀ st, rewriteCall [(str "a)b", str "V")] (str "$t('a)b', fn(1)") st =
        some (str "$t('a)b', fn(1, 'V')", true)) ∧
      closureText [(str "a)b", str "V")]
          ((attrCalls (str ":label=\"$t('a)b', fn(1))\"")).head
            (List.ne_nil_of_length_pos (by decide))) =
        str "$t('a)b', fn(1, 'V')" ∧
      processFileContent (str ":label=\"$t('a)b', fn(1))\"") [(str "a)b", str "V")] =
        some (replaceCalls (closureText [(str "a)b", str "V")])
          (str ":label=\"$t('a)b', fn(1))\""), true))) :=
  ⟨⟨by decide, by decide,
      processFileContent_value_after_param (str ":label=\"$t('k', \x7bn: 1\x7d)\"")
        [(str "k", str "V")]
        ((attrCalls (str ":label=\"$t('k', \x7bn: 1\x7d)\"")).head
          (List.ne_nil_of_length_pos (by decide))) (str "V")
        (List.head_mem _) (by decide) (by decide) (by decide)⟩,
    by decide, by decide,
    processFileContent_value_after_param (str ":label=\"$t('a)b', fn(1))\"")
      [(str "a)b", str "V")]
      ((attrCalls (str ":label=\"$t('a)b', fn(1))\"")).head
        (List.ne_nil_of_length_pos (by decide))) (str "V")
      (List.head_mem _) (by decide) (by decide) (by decide)⟩

/-! ## The fuel of the loops is enough -/

theorem find_rest_length (re : Regex) (prev : Option Sym) (rest : Str) (m : Match)
    (h : find re prev rest = some m) :
    rest.length = m.before.length + m.text.length + m.thread.rest.length := by
  have := congrArg List.length (find_split re rest prev m h)
  simp only [List.length_append] at this
  omega

/-- With a fuel above the length of the text, `findAllLoop` gives the same
matches whatever the fuel. -/
theorem findAllLoop_fuel (re : Regex) (fuel : Nat) :
    ∀ (fuel' : Nat) (prev : Option Sym) (rest : Str), rest.length < fuel → rest.length < fuel' →
      findAllLoop re fuel prev rest = findAllLoop re fuel' prev rest := by
  induction fuel with
  | zero => intro fuel' prev rest h; omega
  | succ fuel ih =>
    intro fuel' prev rest h h'
    cases fuel' with
    | zero => omega
    | succ fuel' =>
      simp only [findAllLoop]
      cases hf : find re prev rest with
      | none => rfl
      | some m =>
        have hl := find_rest_length re prev rest m hf
        simp only
        split_ifs with he
        · cases hr : m.thread.rest with
          | nil => rfl
          | cons c cs =>
            simp only
            rw [hr] at hl
            simp only [List.length_cons] at hl
            rw [ih fuel' (some c) cs (by omega) (by omega)]
        · have hne : 0 < m.text.length := by
            cases ht : m.text with
            | nil => rw [ht] at he; exact absurd rfl he
            | cons a as => simp
          rw [ih fuel' m.thread.prev m.thread.rest (by omega) (by omega)]

/-- With a fuel above the length of the text, `replaceAllLoop` gives the same
result whatever the fuel. -/
theorem replaceAllLoop_fuel {σ : Type} (re : Regex) (repl : Str → σ → Option (Str × σ))
    (fuel : Nat) :
    ∀ (fuel' : Nat) (prev : Option Sym) (rest : Str) (st : σ),
      rest.length < fuel → rest.length < fuel' →
      replaceAllLoop re repl fuel prev rest st = replaceAllLoop re repl fuel' prev rest st := by
  induction fuel with
  | zero => intro fuel' prev rest st h; omega
  | succ fuel ih =>
    intro fuel' prev rest st h h'
    cases fuel' with
    | zero => omega
    | succ fuel' =>
      simp only [replaceAllLoop]
      cases hf : find re prev rest with
      | none => rfl
      | some m =>
        have hl := find_rest_length re prev rest m hf
        simp only
        cases hr : repl m.text st with
        | none => rfl
        | some r =>
          obtain ⟨out, st'⟩ := r
          simp only
          split_ifs with he
          · cases hrest : m.thread.rest with
            | nil => rfl
            | cons c cs =>
              simp only
              rw [hrest] at hl
              simp only [List.length_cons] at hl
              rw [ih fuel' (some c) cs st' (by omega) (by omega)]
          · have hne : 0 < m.text.length := by
              cases ht : m.text with
              | nil => rw [ht] at he; exact absurd rfl he
              | cons a as => simp
            rw [ih fuel' m.thread.prev m.thread.rest st' (by omega) (by omega)]

end I18n
